import Mathlib

/-!
# MallocSiteTable: the NMT call-site table and its access guard

A shallow embedding of `src/hotspot/share/services/mallocSiteTable.hpp` and
`mallocSiteTable.inline.hpp`.

Conventions of the embedding.

* The process-wide counter `MallocSiteTable::_access_count` is a C++ `int`.  It is an
  `Int` here, kept inside `[min_jint, max_jint]`; `Atomic::add` and `Atomic::dec` wrap
  around (two's complement), which `wrap_jint` makes explicit.
* An `AccessGuard` holds a reference `_guard` to that counter.  The reference becomes
  explicit state passing: every guard operation takes the counter and returns the new one.
* Operations run without interleaving (one thread at a time), so a compare-and-swap
  succeeds at its first attempt.
* The `assert`s of the source are debug-build checks on `MemTracker::tracking_level()`
  and on `flags != mtNone`; the embedding is that of the product build, where they
  expand to nothing.
-/

namespace MallocSiteTable

/-! ## 32-bit `int` arithmetic -/

/-- The least value of a 32-bit `int`. -/
def min_jint : Int := -2147483648

/-- The greatest value of a 32-bit `int`. -/
def max_jint : Int := 2147483647

/-- Two's-complement reduction of an integer to the range of a 32-bit `int`. -/
def wrap_jint (x : Int) : Int := (x + 2147483648) % 4294967296 - 2147483648

/-! ## AccessGuard -/

/-- The `enum AccessState` of `AccessGuard`. -/
inductive AccessState where
  | NoAccess
  | SharedAccess
  | ExclusiveAccess
deriving DecidableEq, Repr

/-- An `AccessGuard` object: its `_access_state` (the `_guard` reference is passed
separately as the counter value). -/
structure AccessGuard where
  _access_state : AccessState
deriving DecidableEq, Repr

/-- The sentinel `_MAGIC_ = min_jint`. -/
def _MAGIC_ : Int := min_jint

/-- The constructor `AccessGuard()`: state `NoAccess`. -/
def AccessGuard.new : AccessGuard := { _access_state := AccessState.NoAccess }

/-- The method `AccessGuard::shared_access`, from the inline header.
`Atomic::add` returns the new value `res`; a negative `res` is undone by `Atomic::dec`.
Returns the guard, the counter and the returned `bool`. -/
def AccessGuard.shared_access (g : AccessGuard) (_guard : Int) : AccessGuard × Int × Bool :=
  let res := wrap_jint (_guard + 1)
  if res < 0 then
    (g, wrap_jint (res - 1), false)
  else
    ({ _access_state := AccessState.SharedAccess }, res, true)

/-- The destructor `~AccessGuard()`: a guard in state `SharedAccess` decrements the
counter; returns the counter. -/
def AccessGuard.destructor (g : AccessGuard) (_guard : Int) : Int :=
  if g._access_state = AccessState.SharedAccess then wrap_jint (_guard - 1) else _guard

/-- Modelled from the spec: `AccessGuard::exclusive_access` is declared in the header
and defined outside the given sources.  The spec: it sets the counter to the sentinel and
waits until the counter reads exactly the sentinel, that is until every shared holder has
released; the guard's state becomes `ExclusiveAccess`.  The value returned here is the
state at the moment the call returns. -/
def AccessGuard.exclusive_access (_g : AccessGuard) (_guard : Int) : AccessGuard × Int :=
  ({ _access_state := AccessState.ExclusiveAccess }, _MAGIC_)

/-! ## The guard as a transition system -/

/-- The counter together with the guard objects that are alive (one per operation in
flight). -/
structure GuardSystem where
  _access_count : Int
  guards : List AccessGuard
deriving DecidableEq, Repr

/-- The two kinds of step: a `shared_access` attempt on a newly constructed guard, and the
release (destruction) of the live guard at position `i`. -/
inductive GuardEvent where
  | attempt
  | release (i : Nat)
deriving DecidableEq, Repr

/-- One step.  An attempt returns what `shared_access` returned; a release returns
nothing.  Releasing a position that holds no guard does nothing. -/
def GuardSystem.step (s : GuardSystem) : GuardEvent → GuardSystem × Option Bool
  | GuardEvent.attempt =>
      let r := AccessGuard.shared_access AccessGuard.new s._access_count
      ({ _access_count := r.2.1, guards := r.1 :: s.guards }, some r.2.2)
  | GuardEvent.release i =>
      match s.guards.get? i with
      | some g =>
          ({ _access_count := g.destructor s._access_count, guards := s.guards.eraseIdx i },
            none)
      | none => (s, none)

/-- Runs a sequence of steps; returns the final state and what the attempts returned,
in order. -/
def GuardSystem.run (s : GuardSystem) : List GuardEvent → GuardSystem × List Bool
  | [] => (s, [])
  | ev :: evs =>
      let r := s.step ev
      let rest := GuardSystem.run r.1 evs
      (rest.1, r.2.toList ++ rest.2)

/-- The state in which a call of `exclusive_access` returns: the call is made on the
guard `g` with the counter at `c`, beside the live guards `others`. -/
def GuardSystem.latched (g : AccessGuard) (c : Int) (others : List AccessGuard) :
    GuardSystem :=
  { _access_count := (g.exclusive_access c).2, guards := (g.exclusive_access c).1 :: others }

/-- No live guard is in state `SharedAccess`. -/
def no_shared (gs : List AccessGuard) : Prop :=
  ∀ g ∈ gs, g._access_state ≠ AccessState.SharedAccess

instance (gs : List AccessGuard) : Decidable (no_shared gs) := by
  unfold no_shared; infer_instance

/-! ## Records and bucket entries -/

/-- A native call stack: the bounded sequence of its frame addresses.  The type lives
outside the given sources; only its equality and its hash are used. -/
abbrev NativeCallStack := List Nat

/-- The memory category tag `MEMFLAGS`, an enumeration declared outside the given
sources; only its identity is used. -/
abbrev MEMFLAGS := Nat

/-- Modelled from the spec: the width of `size_t`; the spec gives the two counters of
a record as `u64`. -/
def size_t_bits : Nat := 64

/-- Reduction of an integer to the range of `size_t` (unsigned wrap-around). -/
def wrap_size_t (x : Int) : Nat := (x % (2 ^ size_t_bits : Nat)).toNat

/-- Modelled from the spec: `MemoryCounter` (the type of `MallocSite::_c`) is declared
outside the given sources.  It holds the byte and call counters of one record. -/
structure MemoryCounter where
  _count : Nat
  _size : Nat
deriving DecidableEq, Repr

/-- Modelled from the spec: `MemoryCounter::allocate`, outside the given sources.
The spec: `bytes_live += size; allocation_count += 1`, both `u64`. -/
def MemoryCounter.allocate (c : MemoryCounter) (size : Nat) : MemoryCounter :=
  { _count := wrap_size_t ((c._count : Int) + 1),
    _size := wrap_size_t ((c._size : Int) + (size : Int)) }

/-- Modelled from the spec: `MemoryCounter::deallocate`, outside the given sources.
The spec: `bytes_live -= size`, with no change of the call counter and no check
that `size` fits. -/
def MemoryCounter.deallocate (c : MemoryCounter) (size : Nat) : MemoryCounter :=
  { _count := c._count, _size := wrap_size_t ((c._size : Int) - (size : Int)) }

/-- The class `MallocSite`: the call stack and flags of its base `AllocationSite`, and the
counter `_c`. -/
structure MallocSite where
  _call_stack : NativeCallStack
  _flags : MEMFLAGS
  _c : MemoryCounter
deriving DecidableEq, Repr

/-- The constructor `MallocSite(stack, flags)`: a default (zero) counter. -/
def MallocSite.new (stack : NativeCallStack) (flags : MEMFLAGS) : MallocSite :=
  { _call_stack := stack, _flags := flags, _c := { _count := 0, _size := 0 } }

/-- `MallocSite::call_stack` (of the base `AllocationSite`). -/
def MallocSite.call_stack (s : MallocSite) : NativeCallStack := s._call_stack

/-- `MallocSite::allocate`. -/
def MallocSite.allocate (s : MallocSite) (size : Nat) : MallocSite :=
  { s with _c := s._c.allocate size }

/-- `MallocSite::deallocate`. -/
def MallocSite.deallocate (s : MallocSite) (size : Nat) : MallocSite :=
  { s with _c := s._c.deallocate size }

/-- `MallocSite::size`. -/
def MallocSite.size (s : MallocSite) : Nat := s._c._size

/-- What the table takes from outside the given sources: the constant
`NMT_TrackingStackDepth` and the hash of a call stack. -/
structure Env where
  NMT_TrackingStackDepth : Nat
  hash : NativeCallStack → Nat

/-- The class `MallocSiteHashtableEntry`.  The `_next` pointer is the tail of the list
that holds the entry. -/
structure MallocSiteHashtableEntry where
  _malloc_site : MallocSite
  _hash : Nat
deriving DecidableEq, Repr

/-- The constructor `MallocSiteHashtableEntry(stack, flags)`; the hash is an
`unsigned int`. -/
def MallocSiteHashtableEntry.new (E : Env) (stack : NativeCallStack) (flags : MEMFLAGS) :
    MallocSiteHashtableEntry :=
  { _malloc_site := MallocSite.new stack flags, _hash := E.hash stack % 4294967296 }

/-- `MallocSiteHashtableEntry::peek`. -/
def MallocSiteHashtableEntry.peek (e : MallocSiteHashtableEntry) : MallocSite :=
  e._malloc_site

/-- The record of an entry replaced by its image under `f` (an in-place update through
`data()`). -/
def MallocSiteHashtableEntry.update (f : MallocSite → MallocSite)
    (e : MallocSiteHashtableEntry) : MallocSiteHashtableEntry :=
  { e with _malloc_site := f e._malloc_site }

/-! ## The table -/

/-- `table_base_size`. -/
def table_base_size : Nat := 128

/-- `table_size = table_base_size * NMT_TrackingStackDepth - 1`, as a natural number
(for a depth of at least 1, the only depths that give an array size). -/
def table_size (E : Env) : Nat := table_base_size * E.NMT_TrackingStackDepth - 1

/-- `hash_to_index`. -/
def hash_to_index (E : Env) (hash : Nat) : Nat := hash % table_size E

/-- The static state of `MallocSiteTable`: the counter `_access_count` and the bucket
array `_table`, each bucket being its linked list from the head. -/
structure Table where
  _access_count : Int
  _table : Nat → List MallocSiteHashtableEntry

/-- The bucket of a call stack: `hash_to_index` of its (`unsigned int`) hash. -/
def bucket_of (E : Env) (key : NativeCallStack) : Nat :=
  hash_to_index E (E.hash key % 4294967296)

/-- The counter after a granted `shared_access` and the release that follows it. -/
def count_after (c : Int) : Int := wrap_jint (wrap_jint (c + 1) - 1)

/-- A bucket list scanned from its head for the call stack `key`; the position of the first
match, counted from the tail of the list. -/
def find_pos (key : NativeCallStack) : List MallocSiteHashtableEntry → Option Nat
  | [] => none
  | e :: rest => if e._malloc_site._call_stack = key then some rest.length else find_pos key rest

/-- A bucket list walked from its head to the entry at position `pos_idx`, counted from
the tail of the list. -/
def entry_at : List MallocSiteHashtableEntry → Nat → Option MallocSiteHashtableEntry
  | [], _ => none
  | e :: rest, pos_idx => if pos_idx = rest.length then some e else entry_at rest pos_idx

/-- The record at position `pos_idx` of a bucket list updated in place by `f`. -/
def modify_at (f : MallocSite → MallocSite) :
    List MallocSiteHashtableEntry → Nat → List MallocSiteHashtableEntry
  | [], _ => []
  | e :: rest, pos_idx =>
      if pos_idx = rest.length then e.update f :: rest else e :: modify_at f rest pos_idx

/-- The bucket `bucket_idx` of a table replaced by `l`. -/
def Table.set_bucket (t : Table) (bucket_idx : Nat) (l : List MallocSiteHashtableEntry) :
    Table :=
  { t with _table := fun i => if i = bucket_idx then l else t._table i }

/-- The record at a location updated in place by `f` (a write through a `MallocSite*`). -/
def Table.update_site (t : Table) (bucket_idx pos_idx : Nat) (f : MallocSite → MallocSite) :
    Table :=
  t.set_bucket bucket_idx (modify_at f (t._table bucket_idx) pos_idx)

/-- Modelled from the spec: `MallocSiteTable::malloc_site` is declared in the header and
defined outside the given sources.  The spec: the location is resolved again by walking
the bucket to the indexed position, `pos_idx` being the offset from the tail of the
list; a location that does not resolve gives no record (`NULL`). -/
def malloc_site (t : Table) (bucket_idx pos_idx : Nat) : Option MallocSite :=
  (entry_at (t._table bucket_idx) pos_idx).map MallocSiteHashtableEntry.peek

/-- What `lookup_or_add` leaves behind: the table, the two out-parameters, and the
returned `MallocSite*`, a pointer being the location of the record (`none` is `NULL`). -/
structure LookupResult where
  table : Table
  bucket_idx : Nat
  pos_idx : Nat
  site : Option (Nat × Nat)

/-- Modelled from the spec: `MallocSiteTable::lookup_or_add` is declared in the header
and defined outside the given sources.  The spec: `bucket_idx = hash % N`; the bucket is
scanned from the head for an equal call stack, and a match returns its location and
record; without a match a new entry is allocated and published at the head of the bucket;
the record is `NULL` only when the allocation of the entry fails (`oom`).  The indices
after a failure are unspecified: here `pos_idx` keeps its value.  The header's comment
on `allocation_at` also names an overflow of the hash bucket as a cause of failure; the
spec gives no bound on the length of a bucket list, and none is modelled here: this is
the behaviour while the bucket has room, and `lookup_or_add_bounded` adds the bound. -/
def lookup_or_add (E : Env) (t : Table) (key : NativeCallStack) (_bucket_idx pos_idx : Nat)
    (flags : MEMFLAGS) (oom : Bool) : LookupResult :=
  let index := hash_to_index E (E.hash key % 4294967296)
  match find_pos key (t._table index) with
  | some p => { table := t, bucket_idx := index, pos_idx := p, site := some (index, p) }
  | none =>
      if oom then
        { table := t, bucket_idx := index, pos_idx := pos_idx, site := none }
      else
        let entry := MallocSiteHashtableEntry.new E key flags
        { table := t.set_bucket index (entry :: t._table index),
          bucket_idx := index, pos_idx := (t._table index).length,
          site := some (index, (t._table index).length) }

/-- What `access_stack` leaves behind: the table, the `stack` reference and the returned
`bool`. -/
structure AccessResult where
  table : Table
  stack : NativeCallStack
  ok : Bool

/-- `MallocSiteTable::access_stack`, from the inline header.  The guard is
constructed on entry and destroyed on return. -/
def access_stack (t : Table) (stack : NativeCallStack) (bucket_idx pos_idx : Nat) :
    AccessResult :=
  let guard := AccessGuard.new
  let r := guard.shared_access t._access_count
  let t1 : Table := { t with _access_count := r.2.1 }
  let fini (x : Table) : Table := { x with _access_count := r.1.destructor x._access_count }
  if r.2.2 then
    match malloc_site t1 bucket_idx pos_idx with
    | some site => { table := fini t1, stack := site.call_stack, ok := true }
    | none => { table := fini t1, stack := stack, ok := false }
  else
    { table := fini t1, stack := stack, ok := false }

/-- What `allocation_at` leaves behind: the table, the two out-parameters and the
returned `bool`. -/
structure AllocResult where
  table : Table
  bucket_idx : Nat
  pos_idx : Nat
  ok : Bool

/-- `MallocSiteTable::allocation_at`, from the inline header.  `oom` says whether the
allocation of a new entry, if one is asked for, fails. -/
def allocation_at (E : Env) (t : Table) (stack : NativeCallStack) (size : Nat)
    (bucket_idx pos_idx : Nat) (flags : MEMFLAGS) (oom : Bool) : AllocResult :=
  let guard := AccessGuard.new
  let r := guard.shared_access t._access_count
  let t1 : Table := { t with _access_count := r.2.1 }
  let fini (x : Table) : Table := { x with _access_count := r.1.destructor x._access_count }
  if r.2.2 then
    let l := lookup_or_add E t1 stack bucket_idx pos_idx flags oom
    match l.site with
    | some loc =>
        { table := fini (l.table.update_site loc.1 loc.2 (fun s => s.allocate size)),
          bucket_idx := l.bucket_idx, pos_idx := l.pos_idx, ok := true }
    | none =>
        { table := fini l.table, bucket_idx := l.bucket_idx, pos_idx := l.pos_idx, ok := false }
  else
    { table := fini t1, bucket_idx := bucket_idx, pos_idx := pos_idx, ok := false }

/-- What `deallocation_at` leaves behind: the table and the returned `bool`. -/
structure DeallocResult where
  table : Table
  ok : Bool

/-- `MallocSiteTable::deallocation_at`, from the inline header. -/
def deallocation_at (t : Table) (size : Nat) (bucket_idx pos_idx : Nat) : DeallocResult :=
  let guard := AccessGuard.new
  let r := guard.shared_access t._access_count
  let t1 : Table := { t with _access_count := r.2.1 }
  let fini (x : Table) : Table := { x with _access_count := r.1.destructor x._access_count }
  if r.2.2 then
    match malloc_site t1 bucket_idx pos_idx with
    | some _ =>
        { table := fini (t1.update_site bucket_idx pos_idx (fun s => s.deallocate size)),
          ok := true }
    | none => { table := fini t1, ok := false }
  else
    { table := fini t1, ok := false }

/-- Modelled from the spec: `MallocSiteTable::initialize` is defined outside the given
sources.  The spec: it allocates the bucket array and resets the counter to zero. -/
def initial_table : Table := { _access_count := 0, _table := fun _ => [] }

/-- Modelled from the spec: `MallocSiteTable::shutdown` is defined outside the given
sources.  The spec: it calls `exclusive_access()` and then frees the list of every
bucket. -/
def shutdown (t : Table) : Table :=
  let r := AccessGuard.exclusive_access AccessGuard.new t._access_count
  { _access_count := r.2, _table := fun _ => [] }

/-- A table is live when a `shared_access` on its counter is granted. -/
def live (t : Table) : Prop :=
  (AccessGuard.shared_access AccessGuard.new t._access_count).2.2 = true

instance (t : Table) : Decidable (live t) := by
  unfold live; infer_instance

/-! ## Sequences of operations -/

/-- A call of one of the three guarded operations, with its arguments (for the
references and out-parameters, their values before the call). -/
inductive Op where
  | access_stack (stack : NativeCallStack) (bucket_idx pos_idx : Nat)
  | allocation_at (stack : NativeCallStack) (size : Nat) (bucket_idx pos_idx : Nat)
      (flags : MEMFLAGS) (oom : Bool)
  | deallocation_at (size : Nat) (bucket_idx pos_idx : Nat)
deriving DecidableEq, Repr

/-- The outcome of a call: the returned `bool`, and the values of the out-parameters and
of the `stack` reference after the call (for an operation without one of them, its
argument). -/
structure Outcome where
  ok : Bool
  bucket_idx : Nat
  pos_idx : Nat
  stack : NativeCallStack
deriving DecidableEq, Repr

/-- One call applied to a table. -/
def Op.apply (E : Env) (t : Table) : Op → Table × Outcome
  | Op.access_stack stack b p =>
      let r := MallocSiteTable.access_stack t stack b p
      (r.table, { ok := r.ok, bucket_idx := b, pos_idx := p, stack := r.stack })
  | Op.allocation_at stack size b p flags oom =>
      let r := MallocSiteTable.allocation_at E t stack size b p flags oom
      (r.table, { ok := r.ok, bucket_idx := r.bucket_idx, pos_idx := r.pos_idx, stack := stack })
  | Op.deallocation_at size b p =>
      let r := MallocSiteTable.deallocation_at t size b p
      (r.table, { ok := r.ok, bucket_idx := b, pos_idx := p, stack := [] })

/-- A sequence of calls applied one after the other; the final table and the outcome of
each call, in order. -/
def run_ops (E : Env) (t : Table) : List Op → Table × List Outcome
  | [] => (t, [])
  | op :: ops =>
      let r := op.apply E t
      let rest := run_ops E r.1 ops
      (rest.1, r.2 :: rest.2)

/-! ## Walking the table -/

/-- A `MallocSiteWalker`: its `do_malloc_site`, acting on the walker's own state. -/
structure MallocSiteWalker (σ : Type) where
  do_malloc_site : σ → MallocSite → σ × Bool

/-- The inner loop of the walk over one bucket list: the walker's state, the records
visited in order, and whether the list was walked to its end. -/
def walk_bucket {σ : Type} (w : MallocSiteWalker σ) :
    List MallocSiteHashtableEntry → σ → σ × List MallocSite × Bool
  | [], s => (s, [], true)
  | e :: rest, s =>
      let r := w.do_malloc_site s e.peek
      if r.2 then
        let k := walk_bucket w rest r.1
        (k.1, e.peek :: k.2.1, k.2.2)
      else
        (r.1, [e.peek], false)

/-- The outer loop of the walk over the buckets `index`, ..., `index + n - 1`. -/
def walk_from {σ : Type} (w : MallocSiteWalker σ) (t : Table) :
    Nat → Nat → σ → σ × List MallocSite × Bool
  | _, 0, s => (s, [], true)
  | index, n + 1, s =>
      let r := walk_bucket w (t._table index) s
      if r.2.2 then
        let k := walk_from w t (index + 1) n r.1
        (k.1, r.2.1 ++ k.2.1, k.2.2)
      else
        r

/-- Modelled from the spec: `MallocSiteTable::walk_malloc_site` is declared in the header
and defined outside the given sources.  The spec: it iterates every bucket and every
entry of each bucket, invoking the visitor with each record; a visitor that returns
`false` stops the walk, which then returns `false`; a full traversal returns `true`.
The spec states exclusive access as a requirement and gives the walk no failure of its
own, so no guard is taken here.
Returns the walker's state, the records visited in order, and the returned `bool`. -/
def walk_malloc_site {σ : Type} (E : Env) (t : Table) (w : MallocSiteWalker σ) (s : σ) :
    σ × List MallocSite × Bool :=
  walk_from w t 0 (table_size E) s

/-- A visitor that counts nothing and always asks to continue. -/
def always_true_walker : MallocSiteWalker Unit :=
  { do_malloc_site := fun s _ => (s, true) }

/-- An update of a record that keeps its identity: the call stack and the flags. -/
def keeps_identity (f : MallocSite → MallocSite) : Prop :=
  ∀ s, (f s)._call_stack = s._call_stack ∧ (f s)._flags = s._flags

/-- The three shapes of the change an operation makes to the bucket array: none; an
in-place update of the record at one location; a new entry for a call stack absent
from its bucket, put at the head of that bucket. -/
inductive BucketStep (E : Env) :
    (Nat → List MallocSiteHashtableEntry) → (Nat → List MallocSiteHashtableEntry) → Prop where
  | same (T : Nat → List MallocSiteHashtableEntry) : BucketStep E T T
  | modify (T : Nat → List MallocSiteHashtableEntry) (b p : Nat)
      (f : MallocSite → MallocSite) (hf : keeps_identity f) :
      BucketStep E T (fun i => if i = b then modify_at f (T b) p else T i)
  | insert (T : Nat → List MallocSiteHashtableEntry) (key : NativeCallStack)
      (flags : MEMFLAGS) (f : MallocSite → MallocSite) (hf : keeps_identity f)
      (habsent : find_pos key (T (bucket_of E key)) = none) :
      BucketStep E T (fun i => if i = bucket_of E key
        then (MallocSiteHashtableEntry.new E key flags).update f :: T (bucket_of E key)
        else T i)

/-! ## Ledgers of a sequence of calls -/

/-- The arguments of one `allocation_at` call. -/
structure AllocCall where
  stack : NativeCallStack
  size : Nat
  bucket_idx : Nat
  pos_idx : Nat
  flags : MEMFLAGS
deriving DecidableEq, Repr

/-- The call as an operation whose entry allocation does not fail. -/
def AllocCall.op (c : AllocCall) : Op :=
  Op.allocation_at c.stack c.size c.bucket_idx c.pos_idx c.flags false

/-- The call stacks held by a bucket list, from its head. -/
def stacks_of (l : List MallocSiteHashtableEntry) : List NativeCallStack :=
  l.map (fun e => e._malloc_site._call_stack)

/-- A bucket array is well formed when every entry sits in the bucket of its call stack
and no bucket holds a call stack twice. -/
def well_formed (E : Env) (T : Nat → List MallocSiteHashtableEntry) : Prop :=
  ∀ b, (∀ k ∈ stacks_of (T b), bucket_of E k = b) ∧ (stacks_of (T b)).Nodup

/-- The records of the buckets `index`, ..., `index + n - 1`, in the order of the walk. -/
def all_sites_from (T : Nat → List MallocSiteHashtableEntry) : Nat → Nat → List MallocSite
  | _, 0 => []
  | index, n + 1 =>
      (T index).map MallocSiteHashtableEntry.peek ++ all_sites_from T (index + 1) n

/-- The sum of `size()` over a list of records. -/
def total_size (sites : List MallocSite) : Int :=
  (sites.map (fun s => (s.size : Int))).sum

/-- The sum of the sizes passed to the `allocation_at` calls that returned `true`. -/
def allocated_bytes : List Op → List Outcome → Nat
  | Op.allocation_at _ size _ _ _ _ :: ops, o :: outs =>
      (if o.ok then size else 0) + allocated_bytes ops outs
  | _ :: ops, _ :: outs => allocated_bytes ops outs
  | _, _ => 0

/-- The sum of the sizes passed to the `deallocation_at` calls that returned `true`. -/
def deallocated_bytes : List Op → List Outcome → Nat
  | Op.deallocation_at size _ _ :: ops, o :: outs =>
      (if o.ok then size else 0) + deallocated_bytes ops outs
  | _ :: ops, _ :: outs => deallocated_bytes ops outs
  | _, _ => 0

/-- The call stacks passed to the `allocation_at` calls that returned `true`, in order. -/
def allocated_stacks : List Op → List Outcome → List NativeCallStack
  | Op.allocation_at stack _ _ _ _ _ :: ops, o :: outs =>
      (if o.ok then [stack] else []) ++ allocated_stacks ops outs
  | _ :: ops, _ :: outs => allocated_stacks ops outs
  | _, _ => []

/-- The call stack `k` has an entry in some bucket. -/
def present (T : Nat → List MallocSiteHashtableEntry) (k : NativeCallStack) : Prop :=
  ∃ b, k ∈ stacks_of (T b)

/-! ## Sample data -/

/-- A sample environment: stack depth 4, and the sum of the frame addresses as hash. -/
def sample_env : Env := { NMT_TrackingStackDepth := 4, hash := fun s => s.sum }

/-- Sample call stack `A`. -/
def stack_A : NativeCallStack := [1, 2, 3]

/-- Sample call stack `B`. -/
def stack_B : NativeCallStack := [7, 8]

/-- Sample call stack `C`, which falls into the bucket of `A` under `sample_env`
(`517 % 511 = 6 = (1 + 2 + 3) % 511`). -/
def stack_C : NativeCallStack := [517]

/-! ## The base walker and the answers of a visitor -/

/-- The base class `MallocSiteWalker`, whose `do_malloc_site` returns `false`. -/
def MallocSiteWalker.base : MallocSiteWalker Unit :=
  { do_malloc_site := fun s _ => (s, false) }

/-- The answers of a visitor invoked on the records of a list one after the other. -/
def visitor_answers {σ : Type} (w : MallocSiteWalker σ) : List MallocSite → σ → List Bool
  | [], _ => []
  | x :: rest, s => (w.do_malloc_site s x).2 :: visitor_answers w rest (w.do_malloc_site s x).1

/-- A walk over a list of records: the walker's state, the records visited in order,
and whether the list was walked to its end. -/
def walk_sites {σ : Type} (w : MallocSiteWalker σ) :
    List MallocSite → σ → σ × List MallocSite × Bool
  | [], s => (s, [], true)
  | x :: rest, s =>
      let r := w.do_malloc_site s x
      if r.2 then
        let k := walk_sites w rest r.1
        (k.1, x :: k.2.1, k.2.2)
      else
        (r.1, [x], false)

/-! ## Bucket indexing -/

/-- `hash_buckets`: the cast `(int)table_size`. -/
def hash_buckets (E : Env) : Int := wrap_jint (table_size E : Int)

/-! ## A bound on the length of a bucket list -/

/-- Modelled from the spec: `lookup_or_add` with the second cause of failure that the
header's comment on `allocation_at` documents, "overflow hash bucket".  The function and
the bound on the length of a bucket list are outside the given sources; the bound is the
parameter `max_bucket_length`.  A call stack found in its bucket is returned as before;
a call stack that is absent gets no entry, and the record is `NULL`, when the bucket
already holds `max_bucket_length` entries or the allocation of the entry fails. -/
def lookup_or_add_bounded (E : Env) (max_bucket_length : Nat) (t : Table)
    (key : NativeCallStack) (_bucket_idx pos_idx : Nat) (flags : MEMFLAGS) (oom : Bool) :
    LookupResult :=
  let index := hash_to_index E (E.hash key % 4294967296)
  match find_pos key (t._table index) with
  | some p => { table := t, bucket_idx := index, pos_idx := p, site := some (index, p) }
  | none =>
      if max_bucket_length ≤ (t._table index).length then
        { table := t, bucket_idx := index, pos_idx := pos_idx, site := none }
      else if oom then
        { table := t, bucket_idx := index, pos_idx := pos_idx, site := none }
      else
        let entry := MallocSiteHashtableEntry.new E key flags
        { table := t.set_bucket index (entry :: t._table index),
          bucket_idx := index, pos_idx := (t._table index).length,
          site := some (index, (t._table index).length) }

/-- `MallocSiteTable::allocation_at`, from the inline header, over
`lookup_or_add_bounded`. -/
def allocation_at_bounded (E : Env) (max_bucket_length : Nat) (t : Table)
    (stack : NativeCallStack) (size : Nat) (bucket_idx pos_idx : Nat) (flags : MEMFLAGS)
    (oom : Bool) : AllocResult :=
  let guard := AccessGuard.new
  let r := guard.shared_access t._access_count
  let t1 : Table := { t with _access_count := r.2.1 }
  let fini (x : Table) : Table := { x with _access_count := r.1.destructor x._access_count }
  if r.2.2 then
    let l := lookup_or_add_bounded E max_bucket_length t1 stack bucket_idx pos_idx flags oom
    match l.site with
    | some loc =>
        { table := fini (l.table.update_site loc.1 loc.2 (fun s => s.allocate size)),
          bucket_idx := l.bucket_idx, pos_idx := l.pos_idx, ok := true }
    | none =>
        { table := fini l.table, bucket_idx := l.bucket_idx, pos_idx := l.pos_idx, ok := false }
  else
    { table := fini t1, bucket_idx := bucket_idx, pos_idx := pos_idx, ok := false }

/-- Sample call stack `D`, which falls into the bucket of `A` and `C` under `sample_env`
(`1028 % 511 = 6`). -/
def stack_D : NativeCallStack := [1028]

/-- A call stack of the bucket 6 of `sample_env`: frame 6 followed by `i` frames 0. -/
def padded_stack (i : Nat) : NativeCallStack := 6 :: List.replicate i 0

/-- A live table whose bucket 6 holds `n` entries, for the call stacks `padded_stack 0`,
..., `padded_stack (n - 1)`, and whose other buckets are empty. -/
def crowded_table (n : Nat) : Table :=
  { _access_count := 0,
    _table := fun i => if i = 6 then (List.range n).map
      (fun j => MallocSiteHashtableEntry.new sample_env (padded_stack j) 1) else [] }

/-! ## Counting the shared holders -/

/-- The number of live guards in state `SharedAccess`. -/
def shared_count : List AccessGuard → Nat
  | [] => 0
  | g :: gs => (if g._access_state = AccessState.SharedAccess then 1 else 0) + shared_count gs

/-- The initial state of the guard: counter 0 and no live guard. -/
def GuardSystem.initial : GuardSystem := { _access_count := 0, guards := [] }

/-! ## Sequences of operations on bounded buckets -/

/-- One call applied to a table whose bucket lists are bounded by `max_bucket_length`:
`allocation_at` runs over `lookup_or_add_bounded`, the other two operations are as
before. -/
def Op.apply_bounded (E : Env) (max_bucket_length : Nat) (t : Table) : Op → Table × Outcome
  | Op.access_stack stack b p =>
      let r := MallocSiteTable.access_stack t stack b p
      (r.table, { ok := r.ok, bucket_idx := b, pos_idx := p, stack := r.stack })
  | Op.allocation_at stack size b p flags oom =>
      let r := MallocSiteTable.allocation_at_bounded E max_bucket_length t stack size b p
        flags oom
      (r.table, { ok := r.ok, bucket_idx := r.bucket_idx, pos_idx := r.pos_idx, stack := stack })
  | Op.deallocation_at size b p =>
      let r := MallocSiteTable.deallocation_at t size b p
      (r.table, { ok := r.ok, bucket_idx := b, pos_idx := p, stack := [] })

/-- A sequence of calls applied one after the other to a table with bounded buckets; the
final table and the outcome of each call, in order. -/
def run_ops_bounded (E : Env) (max_bucket_length : Nat) (t : Table) :
    List Op → Table × List Outcome
  | [] => (t, [])
  | op :: ops =>
      let r := op.apply_bounded E max_bucket_length t
      let rest := run_ops_bounded E max_bucket_length r.1 ops
      (rest.1, r.2 :: rest.2)

theorem shared_access_refused (g : AccessGuard) (c : Int)
    (hlo : min_jint ≤ c) (hhi : c ≤ max_jint) (h : wrap_jint (c + 1) < 0) :
    g.shared_access c = (g, c, false) := by
  unfold min_jint at hlo
  unfold max_jint at hhi
  have hback : wrap_jint (wrap_jint (c + 1) - 1) = c := by
    unfold wrap_jint at h ⊢; omega
  simp only [AccessGuard.shared_access, h, if_true, hback]

theorem shared_access_granted (g : AccessGuard) (c : Int)
    (hlo : min_jint ≤ c) (hhi : c ≤ max_jint) (h : 0 ≤ wrap_jint (c + 1)) :
    g.shared_access c = ({ _access_state := AccessState.SharedAccess }, c + 1, true) := by
  unfold min_jint at hlo
  unfold max_jint at hhi
  have hn : ¬ wrap_jint (c + 1) < 0 := not_lt.mpr h
  have hfwd : wrap_jint (c + 1) = c + 1 := by
    unfold wrap_jint at h ⊢; omega
  simp only [AccessGuard.shared_access, hn, if_false]
  rw [hfwd]

/-- C1: `shared_access` adds 1 to the counter.  When the value after the increment is
negative the increment is undone (the counter is what it was before the call), the
guard keeps its state (`NoAccess` for a guard fresh from its constructor) and the call
returns `false`.  When the value after the increment is non-negative the counter is
left incremented by exactly 1, the guard's state is `SharedAccess` and the call returns
`true`. -/
theorem shared_access_contract (g : AccessGuard) (c : Int)
    (hlo : min_jint ≤ c) (hhi : c ≤ max_jint) :
    (wrap_jint (c + 1) < 0 →
      g.shared_access c = (g, c, false) ∧
      (AccessGuard.new.shared_access c).1._access_state = AccessState.NoAccess) ∧
    (0 ≤ wrap_jint (c + 1) →
      g.shared_access c = ({ _access_state := AccessState.SharedAccess }, c + 1, true)) := by
  constructor
  · intro h
    refine ⟨shared_access_refused g c hlo hhi h, ?_⟩
    rw [shared_access_refused AccessGuard.new c hlo hhi h]
    rfl
  · intro h
    exact shared_access_granted g c hlo hhi h

/-- C1, at concrete inputs: from counter 0 a fresh guard is granted shared access and the
counter becomes 1; from the sentinel it is refused and the counter stays the sentinel. -/
theorem shared_access_contract_witness :
    AccessGuard.new.shared_access 0
        = ({ _access_state := AccessState.SharedAccess }, 1, true) ∧
    AccessGuard.new.shared_access _MAGIC_ = (AccessGuard.new, _MAGIC_, false) :=
  ⟨(shared_access_contract AccessGuard.new 0 (by decide) (by decide)).2 (by decide),
   ((shared_access_contract AccessGuard.new _MAGIC_ (by decide) (by decide)).1
      (by decide)).1⟩

theorem shared_access_latched (g : AccessGuard) :
    g.shared_access _MAGIC_ = (g, _MAGIC_, false) :=
  shared_access_refused g _MAGIC_ (by decide) (by decide) (by decide)

theorem destructor_not_shared (g : AccessGuard) (c : Int)
    (h : g._access_state ≠ AccessState.SharedAccess) : g.destructor c = c := by
  simp [AccessGuard.destructor, h]

theorem step_latched (s : GuardSystem) (ev : GuardEvent)
    (hc : s._access_count = _MAGIC_) (hg : no_shared s.guards) :
    (s.step ev).1._access_count = _MAGIC_ ∧ no_shared (s.step ev).1.guards ∧
      ∀ b ∈ (s.step ev).2, b = false := by
  cases ev with
  | attempt =>
      simp only [GuardSystem.step, hc, shared_access_latched]
      refine ⟨trivial, ?_, ?_⟩
      · intro g hgm
        rcases List.mem_cons.mp hgm with h | h
        · subst h; simp [AccessGuard.new]
        · exact hg g h
      · intro b hb
        simpa using hb.symm
  | release i =>
      simp only [GuardSystem.step]
      cases hget : s.guards.get? i with
      | none => exact ⟨hc, hg, by simp⟩
      | some g =>
          have hmem : g ∈ s.guards := List.get?_mem hget
          refine ⟨?_, ?_, by simp⟩
          · simp only [destructor_not_shared g _ (hg g hmem)]
            exact hc
          · intro x hx
            exact hg x (List.mem_of_mem_eraseIdx hx)

theorem run_latched (evs : List GuardEvent) :
    ∀ s : GuardSystem, s._access_count = _MAGIC_ → no_shared s.guards →
      (s.run evs).1._access_count = _MAGIC_ ∧ no_shared (s.run evs).1.guards ∧
        ∀ b ∈ (s.run evs).2, b = false := by
  induction evs with
  | nil =>
      intro s hc hg
      exact ⟨hc, hg, by simp [GuardSystem.run]⟩
  | cons ev evs ih =>
      intro s hc hg
      obtain ⟨h1, h2, h3⟩ := step_latched s ev hc hg
      obtain ⟨k1, k2, k3⟩ := ih (s.step ev).1 h1 h2
      refine ⟨k1, k2, ?_⟩
      intro b hb
      simp only [GuardSystem.run, List.mem_append] at hb
      rcases hb with hb | hb
      · exact h3 b (by simpa using hb)
      · exact k3 b hb

/-- C2: the one-way latch.  Start from the state in which `exclusive_access` has returned
(the counter is the sentinel `_MAGIC_`, no live guard holds `SharedAccess`).  After any
sequence of `shared_access` attempts and guard releases the counter is still the
sentinel, hence negative, no live guard is in state `SharedAccess`, every attempt of
the sequence returned `false`, and one more attempt returns `false`. -/
theorem one_way_latch (g : AccessGuard) (c : Int) (others : List AccessGuard)
    (hothers : no_shared others) (evs : List GuardEvent) :
    ((GuardSystem.latched g c others).run evs).1._access_count < 0 ∧
    ((GuardSystem.latched g c others).run evs).1._access_count = _MAGIC_ ∧
    no_shared ((GuardSystem.latched g c others).run evs).1.guards ∧
    (∀ b ∈ ((GuardSystem.latched g c others).run evs).2, b = false) ∧
    (AccessGuard.new.shared_access
      ((GuardSystem.latched g c others).run evs).1._access_count).2.2 = false := by
  have hg : no_shared (GuardSystem.latched g c others).guards := by
    intro x hx
    rcases List.mem_cons.mp hx with h | h
    · subst h; simp [AccessGuard.exclusive_access]
    · exact hothers x h
  obtain ⟨h1, h2, h3⟩ := run_latched evs (GuardSystem.latched g c others) rfl hg
  refine ⟨?_, h1, h2, h3, ?_⟩
  · rw [h1]; decide
  · rw [h1, shared_access_latched]

/-- C2, at a concrete run: latch from counter 0 beside one guard that was refused, then
attempt, attempt, release the newest guard, attempt: the three attempts return
`false`. -/
theorem one_way_latch_witness :
    no_shared [AccessGuard.new] ∧
    ∀ b ∈ ((GuardSystem.latched AccessGuard.new 0 [AccessGuard.new]).run
      [GuardEvent.attempt, GuardEvent.attempt, GuardEvent.release 0,
        GuardEvent.attempt]).2, b = false :=
  ⟨by decide,
   (one_way_latch AccessGuard.new 0 [AccessGuard.new] (by decide)
      [GuardEvent.attempt, GuardEvent.attempt, GuardEvent.release 0,
        GuardEvent.attempt]).2.2.2.1⟩

/-- C4: the release of a guard.  A guard in state `SharedAccess` decrements the counter
once (`Atomic::dec`: the counter minus 1, which is exact for every counter above
`min_jint`); a guard in state `NoAccess` or `ExclusiveAccess` leaves the counter as it
is. -/
theorem destructor_release (g : AccessGuard) (c : Int) :
    (g._access_state = AccessState.SharedAccess →
      g.destructor c = wrap_jint (c - 1) ∧
      (min_jint < c → c ≤ max_jint → g.destructor c = c - 1)) ∧
    (g._access_state = AccessState.NoAccess → g.destructor c = c) ∧
    (g._access_state = AccessState.ExclusiveAccess → g.destructor c = c) := by
  refine ⟨?_, ?_, ?_⟩
  · intro h
    refine ⟨by simp [AccessGuard.destructor, h], ?_⟩
    intro hlo hhi
    simp only [AccessGuard.destructor, h, if_true]
    unfold min_jint at hlo; unfold max_jint at hhi; unfold wrap_jint; omega
  · intro h; simp [AccessGuard.destructor, h]
  · intro h; simp [AccessGuard.destructor, h]

/-- C4, at concrete guards: with the counter at 3, a guard holding shared access
releases to 2, and the other two kinds of guard leave 3. -/
theorem destructor_release_witness :
    AccessGuard.destructor { _access_state := AccessState.SharedAccess } 3 = 3 - 1 ∧
    AccessGuard.destructor { _access_state := AccessState.NoAccess } 3 = 3 ∧
    AccessGuard.destructor { _access_state := AccessState.ExclusiveAccess } 3 = 3 :=
  ⟨((destructor_release { _access_state := AccessState.SharedAccess } 3).1 rfl).2
      (by decide) (by decide),
   (destructor_release { _access_state := AccessState.NoAccess } 3).2.1 rfl,
   (destructor_release { _access_state := AccessState.ExclusiveAccess } 3).2.2 rfl⟩

/-! ## The guarded operations on a latched or live counter -/

theorem shared_access_new_false (c : Int) (h : wrap_jint (c + 1) < 0) :
    AccessGuard.new.shared_access c
      = (AccessGuard.new, wrap_jint (wrap_jint (c + 1) - 1), false) := by
  simp only [AccessGuard.shared_access, h, if_true]

theorem shared_access_new_true (c : Int) (h : ¬ wrap_jint (c + 1) < 0) :
    AccessGuard.new.shared_access c
      = ({ _access_state := AccessState.SharedAccess }, wrap_jint (c + 1), true) := by
  simp only [AccessGuard.shared_access, h, if_false]

theorem live_iff (t : Table) : live t ↔ ¬ wrap_jint (t._access_count + 1) < 0 := by
  unfold live
  by_cases h : wrap_jint (t._access_count + 1) < 0
  · simp [shared_access_new_false _ h, h]
  · simp [shared_access_new_true _ h, h]

theorem live_of_count (t u : Table) (h : live t)
    (hc : u._access_count = wrap_jint (wrap_jint (t._access_count + 1) - 1)) : live u := by
  rw [live_iff] at h ⊢
  rw [hc]
  unfold wrap_jint at h ⊢
  omega

theorem destructor_new (c : Int) : AccessGuard.new.destructor c = c := by
  simp [AccessGuard.destructor, AccessGuard.new]

theorem destructor_shared (c : Int) :
    AccessGuard.destructor { _access_state := AccessState.SharedAccess } c
      = wrap_jint (c - 1) := by
  simp [AccessGuard.destructor]

theorem table_eta (t : Table) :
    ({ _access_count := t._access_count, _table := t._table } : Table) = t := by
  cases t; rfl

theorem access_stack_latched (t : Table) (h : t._access_count = _MAGIC_)
    (stack : NativeCallStack) (b p : Nat) :
    access_stack t stack b p = { table := t, stack := stack, ok := false } := by
  simp only [access_stack, h, shared_access_latched, destructor_new]
  simp only [← h, table_eta]
  simp

theorem allocation_at_latched (E : Env) (t : Table) (h : t._access_count = _MAGIC_)
    (stack : NativeCallStack) (size b p : Nat) (flags : MEMFLAGS) (oom : Bool) :
    allocation_at E t stack size b p flags oom
      = { table := t, bucket_idx := b, pos_idx := p, ok := false } := by
  simp only [allocation_at, h, shared_access_latched, destructor_new]
  simp only [← h, table_eta]
  simp

theorem deallocation_at_latched (t : Table) (h : t._access_count = _MAGIC_)
    (size b p : Nat) :
    deallocation_at t size b p = { table := t, ok := false } := by
  simp only [deallocation_at, h, shared_access_latched, destructor_new]
  simp only [← h, table_eta]
  simp

theorem apply_latched (E : Env) (t : Table) (h : t._access_count = _MAGIC_) (op : Op) :
    (op.apply E t).1 = t ∧ (op.apply E t).2.ok = false := by
  cases op with
  | access_stack stack b p => simp [Op.apply, access_stack_latched t h]
  | allocation_at stack size b p flags oom => simp [Op.apply, allocation_at_latched E t h]
  | deallocation_at size b p => simp [Op.apply, deallocation_at_latched t h]

theorem run_ops_latched (E : Env) (ops : List Op) :
    ∀ t : Table, t._access_count = _MAGIC_ →
      (run_ops E t ops).1 = t ∧ ∀ o ∈ (run_ops E t ops).2, o.ok = false := by
  induction ops with
  | nil => intro t _; simp [run_ops]
  | cons op ops ih =>
      intro t h
      obtain ⟨h1, h2⟩ := apply_latched E t h op
      have h3 := ih (op.apply E t).1 (by rw [h1]; exact h)
      simp only [run_ops]
      refine ⟨by rw [h3.1, h1], ?_⟩
      intro o ho
      rcases List.mem_cons.mp ho with ho | ho
      · rw [ho]; exact h2
      · exact h3.2 o ho

/-- C3: once the counter is latched at the sentinel, and in particular after `shutdown()`,
every call of `access_stack`, `allocation_at` and `deallocation_at` returns `false`,
whatever its arguments, and so does every call of any later sequence of calls; the
table is left as it is. -/
theorem latched_operations_fail (E : Env) (t : Table) (h : t._access_count = _MAGIC_) :
    (∀ (stack : NativeCallStack) (b p : Nat), (access_stack t stack b p).ok = false) ∧
    (∀ (stack : NativeCallStack) (size b p : Nat) (flags : MEMFLAGS) (oom : Bool),
      (allocation_at E t stack size b p flags oom).ok = false) ∧
    (∀ (size b p : Nat), (deallocation_at t size b p).ok = false) ∧
    (∀ ops : List Op, (run_ops E t ops).1 = t ∧ ∀ o ∈ (run_ops E t ops).2, o.ok = false) ∧
    (∀ (t0 : Table) (ops : List Op), ∀ o ∈ (run_ops E (shutdown t0) ops).2, o.ok = false) := by
  refine ⟨?_, ?_, ?_, ?_, ?_⟩
  · intro stack b p; rw [access_stack_latched t h]
  · intro stack size b p flags oom; rw [allocation_at_latched E t h]
  · intro size b p; rw [deallocation_at_latched t h]
  · intro ops; exact run_ops_latched E ops t h
  · intro t0 ops; exact (run_ops_latched E ops (shutdown t0) rfl).2

/-- C3, at a concrete run: after `shutdown()` an allocation, a deallocation and a stack
access all return `false`. -/
theorem latched_operations_fail_witness :
    (shutdown initial_table)._access_count = _MAGIC_ ∧
    ∀ o ∈ (run_ops sample_env (shutdown initial_table)
      [Op.allocation_at stack_A 10 0 0 1 false, Op.deallocation_at 10 6 0,
        Op.access_stack [] 6 0]).2, o.ok = false :=
  ⟨rfl, ((latched_operations_fail sample_env (shutdown initial_table) rfl).2.2.2.1
      [Op.allocation_at stack_A 10 0 0 1 false, Op.deallocation_at 10 6 0,
        Op.access_stack [] 6 0]).2⟩

/-! ## Bucket lists -/

theorem entry_at_lt (l : List MallocSiteHashtableEntry) (p : Nat)
    (e : MallocSiteHashtableEntry) (h : entry_at l p = some e) : p < l.length := by
  induction l with
  | nil => simp [entry_at] at h
  | cons x rest ih =>
      simp only [entry_at] at h
      by_cases hp : p = rest.length
      · simp [hp]
      · simp only [hp, if_false] at h
        have := ih h
        simp only [List.length_cons]
        omega

theorem entry_at_mem (l : List MallocSiteHashtableEntry) (p : Nat)
    (e : MallocSiteHashtableEntry) (h : entry_at l p = some e) : e ∈ l := by
  induction l with
  | nil => simp [entry_at] at h
  | cons x rest ih =>
      simp only [entry_at] at h
      by_cases hp : p = rest.length
      · simp only [hp, if_true, Option.some.injEq] at h
        simp [h]
      · simp only [hp, if_false] at h
        exact List.mem_cons_of_mem _ (ih h)

theorem entry_at_cons_ne (e : MallocSiteHashtableEntry)
    (l : List MallocSiteHashtableEntry) (p : Nat) (h : p ≠ l.length) :
    entry_at (e :: l) p = entry_at l p := by
  simp [entry_at, h]

theorem find_pos_some (k : NativeCallStack) (l : List MallocSiteHashtableEntry) (p : Nat)
    (h : find_pos k l = some p) :
    ∃ e, entry_at l p = some e ∧ e._malloc_site._call_stack = k := by
  induction l with
  | nil => simp [find_pos] at h
  | cons x rest ih =>
      simp only [find_pos] at h
      by_cases hx : x._malloc_site._call_stack = k
      · simp only [hx, if_true, Option.some.injEq] at h
        exact ⟨x, by simp [entry_at, h], hx⟩
      · simp only [hx, if_false] at h
        obtain ⟨e, he, hk⟩ := ih h
        have hlt := entry_at_lt rest p e he
        exact ⟨e, by rw [entry_at_cons_ne x rest p (by omega)]; exact he, hk⟩

theorem find_pos_none (k : NativeCallStack) (l : List MallocSiteHashtableEntry) :
    find_pos k l = none ↔ ∀ e ∈ l, e._malloc_site._call_stack ≠ k := by
  induction l with
  | nil => simp [find_pos]
  | cons x rest ih =>
      simp only [find_pos]
      by_cases hx : x._malloc_site._call_stack = k
      · simp [hx]
      · simp [hx, ih]

theorem find_pos_of_entry_at (l : List MallocSiteHashtableEntry)
    (hnd : (l.map (fun e => e._malloc_site._call_stack)).Nodup) (p : Nat)
    (e : MallocSiteHashtableEntry) (h : entry_at l p = some e) :
    find_pos e._malloc_site._call_stack l = some p := by
  induction l with
  | nil => simp [entry_at] at h
  | cons x rest ih =>
      simp only [List.map_cons, List.nodup_cons] at hnd
      simp only [entry_at] at h
      by_cases hp : p = rest.length
      · simp only [hp, if_true, Option.some.injEq] at h
        simp [find_pos, h, hp]
      · simp only [hp, if_false] at h
        have hmem := entry_at_mem rest p e h
        have hne : x._malloc_site._call_stack ≠ e._malloc_site._call_stack := by
          intro heq
          apply hnd.1
          rw [heq]
          exact List.mem_map_of_mem _ hmem
        simp only [find_pos, hne, if_false]
        exact ih hnd.2 h

theorem modify_at_length (f : MallocSite → MallocSite) (l : List MallocSiteHashtableEntry)
    (p : Nat) : (modify_at f l p).length = l.length := by
  induction l with
  | nil => simp [modify_at]
  | cons x rest ih =>
      simp only [modify_at]
      by_cases hp : p = rest.length
      · simp [hp]
      · simp [hp, ih]

theorem entry_at_modify_at (f : MallocSite → MallocSite)
    (l : List MallocSiteHashtableEntry) (p q : Nat) :
    entry_at (modify_at f l p) q
      = if q = p then (entry_at l p).map (MallocSiteHashtableEntry.update f)
        else entry_at l q := by
  induction l with
  | nil => simp [modify_at, entry_at]
  | cons x rest ih =>
      simp only [modify_at]
      by_cases hp : p = rest.length
      · simp only [hp, if_true, entry_at]
        by_cases hq : q = rest.length
        · simp [hq]
        · simp [hq]
      · simp only [hp, if_false, entry_at, modify_at_length]
        by_cases hq : q = rest.length
        · have hqp : ¬ rest.length = p := fun h => hp h.symm
          simp [hq, hqp]
        · simp only [hq, if_false, ih, hp]

theorem modify_at_stacks (f : MallocSite → MallocSite)
    (hf : ∀ s, (f s)._call_stack = s._call_stack) (l : List MallocSiteHashtableEntry)
    (p : Nat) :
    (modify_at f l p).map (fun e => e._malloc_site._call_stack)
      = l.map (fun e => e._malloc_site._call_stack) := by
  induction l with
  | nil => simp [modify_at]
  | cons x rest ih =>
      simp only [modify_at]
      by_cases hp : p = rest.length
      · simp [hp, MallocSiteHashtableEntry.update, hf]
      · simp [hp, ih]

theorem modify_at_none (f : MallocSite → MallocSite) (l : List MallocSiteHashtableEntry)
    (p : Nat) (h : entry_at l p = none) : modify_at f l p = l := by
  induction l with
  | nil => simp [modify_at]
  | cons x rest ih =>
      simp only [entry_at] at h
      by_cases hp : p = rest.length
      · simp [hp] at h
      · simp only [hp, if_false] at h
        simp [modify_at, hp, ih h]

/-! ## The operations on a live table -/

theorem malloc_site_congr (t u : Table) (h : u._table = t._table) (b p : Nat) :
    malloc_site u b p = malloc_site t b p := by
  simp [malloc_site, h]

theorem malloc_site_set_bucket (t : Table) (b : Nat) (l : List MallocSiteHashtableEntry)
    (b1 p1 : Nat) :
    malloc_site (t.set_bucket b l) b1 p1
      = if b1 = b then (entry_at l p1).map MallocSiteHashtableEntry.peek
        else malloc_site t b1 p1 := by
  by_cases hb : b1 = b
  · simp [malloc_site, Table.set_bucket, hb]
  · simp [malloc_site, Table.set_bucket, hb]

theorem malloc_site_update_site (t : Table) (b p : Nat) (f : MallocSite → MallocSite)
    (b1 p1 : Nat) :
    malloc_site (t.update_site b p f) b1 p1
      = if b1 = b ∧ p1 = p then (malloc_site t b p).map f else malloc_site t b1 p1 := by
  unfold Table.update_site
  rw [malloc_site_set_bucket]
  by_cases hb : b1 = b
  · subst hb
    rw [entry_at_modify_at]
    by_cases hp : p1 = p
    · subst hp
      simp only [malloc_site, and_self, if_true]
      cases entry_at (t._table b1) p1 with
      | none => rfl
      | some e => rfl
    · simp [hp, malloc_site]
  · simp [hb]

theorem access_stack_live (t : Table) (h : live t) (stack : NativeCallStack) (b p : Nat) :
    (access_stack t stack b p).table._table = t._table ∧
    (access_stack t stack b p).table._access_count = count_after t._access_count ∧
    (access_stack t stack b p).ok = (malloc_site t b p).isSome ∧
    (access_stack t stack b p).stack
      = ((malloc_site t b p).map MallocSite.call_stack).getD stack := by
  rw [live_iff] at h
  have hm : ∀ c : Int, malloc_site { _access_count := c, _table := t._table } b p
      = malloc_site t b p := fun c => malloc_site_congr _ _ rfl b p
  simp only [access_stack, shared_access_new_true _ h, if_true, hm, destructor_shared]
  cases malloc_site t b p with
  | none => exact ⟨rfl, rfl, rfl, rfl⟩
  | some site => exact ⟨rfl, rfl, rfl, rfl⟩

theorem access_stack_denied (t : Table) (h : ¬ live t) (stack : NativeCallStack)
    (b p : Nat) :
    (access_stack t stack b p).table._table = t._table ∧
    (access_stack t stack b p).ok = false ∧
    (access_stack t stack b p).stack = stack := by
  rw [live_iff, not_not] at h
  simp only [access_stack, shared_access_new_false _ h]
  exact ⟨rfl, rfl, rfl⟩

theorem deallocation_at_live (t : Table) (h : live t) (size b p : Nat) :
    (deallocation_at t size b p).table._table
      = (t.update_site b p (fun s => s.deallocate size))._table ∧
    (deallocation_at t size b p).table._access_count = count_after t._access_count ∧
    (deallocation_at t size b p).ok = (malloc_site t b p).isSome := by
  rw [live_iff] at h
  have hm : ∀ c : Int, malloc_site { _access_count := c, _table := t._table } b p
      = malloc_site t b p := fun c => malloc_site_congr _ _ rfl b p
  simp only [deallocation_at, shared_access_new_true _ h, if_true, hm, destructor_shared]
  cases hs : malloc_site t b p with
  | none =>
      refine ⟨?_, rfl, rfl⟩
      have he : entry_at (t._table b) p = none := by
        simpa [malloc_site] using hs
      funext i
      simp only [Table.update_site, Table.set_bucket, modify_at_none _ _ _ he]
      by_cases hi : i = b
      · simp [hi]
      · simp [hi]
  | some site => exact ⟨rfl, rfl, rfl⟩

theorem deallocation_at_denied (t : Table) (h : ¬ live t) (size b p : Nat) :
    (deallocation_at t size b p).table._table = t._table ∧
    (deallocation_at t size b p).ok = false := by
  rw [live_iff, not_not] at h
  simp only [deallocation_at, shared_access_new_false _ h]
  exact ⟨rfl, rfl⟩

theorem allocation_at_denied (E : Env) (t : Table) (h : ¬ live t) (stack : NativeCallStack)
    (size b p : Nat) (flags : MEMFLAGS) (oom : Bool) :
    (allocation_at E t stack size b p flags oom).table._table = t._table ∧
    (allocation_at E t stack size b p flags oom).ok = false ∧
    (allocation_at E t stack size b p flags oom).bucket_idx = b ∧
    (allocation_at E t stack size b p flags oom).pos_idx = p := by
  rw [live_iff, not_not] at h
  simp only [allocation_at, shared_access_new_false _ h]
  exact ⟨rfl, rfl, rfl, rfl⟩

theorem allocation_at_found (E : Env) (t : Table) (h : live t) (stack : NativeCallStack)
    (size b p : Nat) (flags : MEMFLAGS) (oom : Bool) (q : Nat)
    (hf : find_pos stack (t._table (bucket_of E stack)) = some q) :
    (allocation_at E t stack size b p flags oom).table._table
      = (t.update_site (bucket_of E stack) q (fun s => s.allocate size))._table ∧
    (allocation_at E t stack size b p flags oom).table._access_count
      = count_after t._access_count ∧
    (allocation_at E t stack size b p flags oom).ok = true ∧
    (allocation_at E t stack size b p flags oom).bucket_idx = bucket_of E stack ∧
    (allocation_at E t stack size b p flags oom).pos_idx = q := by
  rw [live_iff] at h
  unfold bucket_of at hf
  simp only [allocation_at, shared_access_new_true _ h, if_true, lookup_or_add, hf,
    destructor_shared]
  and_intros <;> first | rfl | trivial

theorem allocation_at_oom (E : Env) (t : Table) (h : live t) (stack : NativeCallStack)
    (size b p : Nat) (flags : MEMFLAGS)
    (hf : find_pos stack (t._table (bucket_of E stack)) = none) :
    (allocation_at E t stack size b p flags true).table._table = t._table ∧
    (allocation_at E t stack size b p flags true).table._access_count
      = count_after t._access_count ∧
    (allocation_at E t stack size b p flags true).ok = false := by
  rw [live_iff] at h
  unfold bucket_of at hf
  simp only [allocation_at, shared_access_new_true _ h, if_true, lookup_or_add, hf,
    destructor_shared]
  and_intros <;> first | rfl | trivial

theorem allocation_at_new (E : Env) (t : Table) (h : live t) (stack : NativeCallStack)
    (size b p : Nat) (flags : MEMFLAGS)
    (hf : find_pos stack (t._table (bucket_of E stack)) = none) :
    (allocation_at E t stack size b p flags false).table._table
      = (t.set_bucket (bucket_of E stack)
          ((MallocSiteHashtableEntry.new E stack flags).update (fun s => s.allocate size)
            :: t._table (bucket_of E stack)))._table ∧
    (allocation_at E t stack size b p flags false).table._access_count
      = count_after t._access_count ∧
    (allocation_at E t stack size b p flags false).ok = true ∧
    (allocation_at E t stack size b p flags false).bucket_idx = bucket_of E stack ∧
    (allocation_at E t stack size b p flags false).pos_idx
      = (t._table (bucket_of E stack)).length := by
  rw [live_iff] at h
  unfold bucket_of at hf
  simp only [allocation_at, shared_access_new_true _ h, if_true, lookup_or_add, hf,
    destructor_shared]
  refine ⟨?_, rfl, rfl, rfl, rfl⟩
  funext i
  simp only [Table.update_site, Table.set_bucket, bucket_of]
  by_cases hi : i = hash_to_index E (E.hash stack % 4294967296)
  · simp [hi, modify_at]
  · simp [hi]

/-! ## The shape of a step -/

theorem keeps_identity_allocate (size : Nat) :
    keeps_identity (fun s => s.allocate size) := by
  intro s; exact ⟨rfl, rfl⟩

theorem keeps_identity_deallocate (size : Nat) :
    keeps_identity (fun s => s.deallocate size) := by
  intro s; exact ⟨rfl, rfl⟩

theorem find_pos_modify_at (f : MallocSite → MallocSite) (hf : keeps_identity f)
    (k : NativeCallStack) (l : List MallocSiteHashtableEntry) (p : Nat) :
    find_pos k (modify_at f l p) = find_pos k l := by
  induction l with
  | nil => simp [modify_at]
  | cons x rest ih =>
      simp only [modify_at]
      by_cases hp : p = rest.length
      · simp [hp, find_pos, MallocSiteHashtableEntry.update, (hf _).1]
      · simp [hp, find_pos, ih, modify_at_length]

theorem apply_step (E : Env) (t : Table) (op : Op) :
    BucketStep E t._table (op.apply E t).1._table := by
  by_cases hl : live t
  · cases op with
    | access_stack stack b p =>
        simp only [Op.apply, (access_stack_live t hl stack b p).1]
        exact BucketStep.same _
    | deallocation_at size b p =>
        simp only [Op.apply, (deallocation_at_live t hl size b p).1]
        exact BucketStep.modify _ b p _ (keeps_identity_deallocate size)
    | allocation_at stack size b p flags oom =>
        simp only [Op.apply]
        cases hf : find_pos stack (t._table (bucket_of E stack)) with
        | some q =>
            rw [(allocation_at_found E t hl stack size b p flags oom q hf).1]
            exact BucketStep.modify _ _ q _ (keeps_identity_allocate size)
        | none =>
            cases oom with
            | true =>
                rw [(allocation_at_oom E t hl stack size b p flags hf).1]
                exact BucketStep.same _
            | false =>
                rw [(allocation_at_new E t hl stack size b p flags hf).1]
                exact BucketStep.insert _ stack flags _ (keeps_identity_allocate size) hf
  · cases op with
    | access_stack stack b p =>
        simp only [Op.apply, (access_stack_denied t hl stack b p).1]
        exact BucketStep.same _
    | deallocation_at size b p =>
        simp only [Op.apply, (deallocation_at_denied t hl size b p).1]
        exact BucketStep.same _
    | allocation_at stack size b p flags oom =>
        simp only [Op.apply, (allocation_at_denied E t hl stack size b p flags oom).1]
        exact BucketStep.same _

theorem step_entry_at (E : Env) (T U : Nat → List MallocSiteHashtableEntry)
    (h : BucketStep E T U) (b p : Nat) (e : MallocSiteHashtableEntry)
    (he : entry_at (T b) p = some e) :
    ∃ e1, entry_at (U b) p = some e1 ∧
      e1._malloc_site._call_stack = e._malloc_site._call_stack ∧
      e1._malloc_site._flags = e._malloc_site._flags ∧ e1._hash = e._hash := by
  cases h with
  | same => exact ⟨e, he, rfl, rfl, rfl⟩
  | modify b1 p1 f hf =>
      by_cases hb : b = b1
      · subst hb
        simp only [if_true, entry_at_modify_at]
        by_cases hp : p = p1
        · subst hp
          simp only [if_true, he, Option.map_some']
          exact ⟨_, rfl, (hf _).1, (hf _).2, rfl⟩
        · simp only [hp, if_false]
          exact ⟨e, he, rfl, rfl, rfl⟩
      · simp only [hb, if_false]
        exact ⟨e, he, rfl, rfl, rfl⟩
  | insert key flags f hf habsent =>
      by_cases hb : b = bucket_of E key
      · subst hb
        simp only [if_true]
        have hlt := entry_at_lt _ _ _ he
        rw [entry_at_cons_ne _ _ _ (by omega)]
        exact ⟨e, he, rfl, rfl, rfl⟩
      · simp only [hb, if_false]
        exact ⟨e, he, rfl, rfl, rfl⟩

theorem step_find_pos (E : Env) (T U : Nat → List MallocSiteHashtableEntry)
    (h : BucketStep E T U) (b q : Nat) (k : NativeCallStack)
    (hk : find_pos k (T b) = some q) : find_pos k (U b) = some q := by
  cases h with
  | same => exact hk
  | modify b1 p1 f hf =>
      by_cases hb : b = b1
      · subst hb
        simp only [if_true, find_pos_modify_at f hf]
        exact hk
      · simp only [hb, if_false]
        exact hk
  | insert key flags f hf habsent =>
      by_cases hb : b = bucket_of E key
      · subst hb
        simp only [if_true, find_pos]
        have hne : ¬ ((MallocSiteHashtableEntry.new E key flags).update f)._malloc_site._call_stack
            = k := by
          intro heq
          have hkey : key = k := by
            rw [← heq]
            simp [MallocSiteHashtableEntry.update, MallocSiteHashtableEntry.new,
              (hf _).1, MallocSite.new]
          subst hkey
          rw [habsent] at hk
          exact Option.noConfusion hk
        simp only [hne, if_false]
        exact hk
      · simp only [hb, if_false]
        exact hk

theorem apply_live (E : Env) (t : Table) (op : Op) (h : live t) :
    live (op.apply E t).1 := by
  apply live_of_count t _ h
  cases op with
  | access_stack stack b p => exact (access_stack_live t h stack b p).2.1
  | deallocation_at size b p => exact (deallocation_at_live t h size b p).2.1
  | allocation_at stack size b p flags oom =>
      simp only [Op.apply]
      cases hf : find_pos stack (t._table (bucket_of E stack)) with
      | some q => exact (allocation_at_found E t h stack size b p flags oom q hf).2.1
      | none =>
          cases oom with
          | true => exact (allocation_at_oom E t h stack size b p flags hf).2.1
          | false => exact (allocation_at_new E t h stack size b p flags hf).2.1

theorem run_ops_live (E : Env) (ops : List Op) :
    ∀ t : Table, live t → live (run_ops E t ops).1 := by
  induction ops with
  | nil => intro t h; exact h
  | cons op ops ih => intro t h; exact ih _ (apply_live E t op h)

theorem run_ops_entry_at (E : Env) (ops : List Op) :
    ∀ (t : Table) (b p : Nat) (e : MallocSiteHashtableEntry),
      entry_at (t._table b) p = some e →
      ∃ e1, entry_at ((run_ops E t ops).1._table b) p = some e1 ∧
        e1._malloc_site._call_stack = e._malloc_site._call_stack ∧
        e1._malloc_site._flags = e._malloc_site._flags ∧ e1._hash = e._hash := by
  induction ops with
  | nil => intro t b p e he; exact ⟨e, he, rfl, rfl, rfl⟩
  | cons op ops ih =>
      intro t b p e he
      obtain ⟨e1, h1, h2, h3, h4⟩ := step_entry_at E _ _ (apply_step E t op) b p e he
      obtain ⟨e2, k1, k2, k3, k4⟩ := ih (op.apply E t).1 b p e1 h1
      exact ⟨e2, k1, k2.trans h2, k3.trans h3, k4.trans h4⟩

theorem run_ops_find_pos (E : Env) (ops : List Op) :
    ∀ (t : Table) (b q : Nat) (k : NativeCallStack),
      find_pos k (t._table b) = some q →
      find_pos k ((run_ops E t ops).1._table b) = some q := by
  induction ops with
  | nil => intro t b q k hk; exact hk
  | cons op ops ih =>
      intro t b q k hk
      exact ih _ b q k (step_find_pos E _ _ (apply_step E t op) b q k hk)

/-! ## Successful allocations -/

theorem update_site_bucket (t : Table) (b p : Nat) (f : MallocSite → MallocSite) :
    (t.update_site b p f)._table b = modify_at f (t._table b) p := by
  simp [Table.update_site, Table.set_bucket]

theorem set_bucket_bucket (t : Table) (b : Nat) (l : List MallocSiteHashtableEntry) :
    (t.set_bucket b l)._table b = l := by
  simp [Table.set_bucket]

theorem allocation_at_ok (E : Env) (t : Table) (stack : NativeCallStack)
    (size b p : Nat) (flags : MEMFLAGS) (oom : Bool)
    (h : (allocation_at E t stack size b p flags oom).ok = true) :
    live t ∧
    (allocation_at E t stack size b p flags oom).bucket_idx = bucket_of E stack ∧
    find_pos stack
        ((allocation_at E t stack size b p flags oom).table._table (bucket_of E stack))
      = some (allocation_at E t stack size b p flags oom).pos_idx := by
  by_cases hl : live t
  · refine ⟨hl, ?_⟩
    cases hf : find_pos stack (t._table (bucket_of E stack)) with
    | some q =>
        obtain ⟨h1, _, _, h4, h5⟩ := allocation_at_found E t hl stack size b p flags oom q hf
        refine ⟨h4, ?_⟩
        rw [h1, h5, update_site_bucket, find_pos_modify_at _ (keeps_identity_allocate size)]
        exact hf
    | none =>
        cases oom with
        | true =>
            rw [(allocation_at_oom E t hl stack size b p flags hf).2.2] at h
            exact Bool.noConfusion h
        | false =>
            obtain ⟨h1, _, _, h4, h5⟩ := allocation_at_new E t hl stack size b p flags hf
            refine ⟨h4, ?_⟩
            rw [h1, h5, set_bucket_bucket]
            simp [find_pos, MallocSiteHashtableEntry.update, MallocSiteHashtableEntry.new,
              MallocSite.new, MallocSite.allocate]
  · rw [(allocation_at_denied E t hl stack size b p flags oom).2.1] at h
    exact Bool.noConfusion h

theorem allocation_at_live_table (E : Env) (t : Table) (stack : NativeCallStack)
    (size b p : Nat) (flags : MEMFLAGS) (oom : Bool) (h : live t) :
    live (allocation_at E t stack size b p flags oom).table :=
  apply_live E t (Op.allocation_at stack size b p flags oom) h

/-- C6: `deallocation_at(size, bucket_idx, pos_idx)` returns `true` exactly when shared
access is granted and `malloc_site(bucket_idx, pos_idx)` resolves to a record.  When it
returns `true`, the record at that location has had `deallocate(size)` applied once and
every other location resolves as before.  When the location does not resolve, and
whenever the call returns `false`, no bucket is changed. -/
theorem deallocation_at_contract (t : Table) (size b p : Nat) :
    ((deallocation_at t size b p).ok = true
      ↔ live t ∧ (malloc_site t b p).isSome = true) ∧
    ((deallocation_at t size b p).ok = true →
      ∀ b1 p1, malloc_site (deallocation_at t size b p).table b1 p1
        = if b1 = b ∧ p1 = p then (malloc_site t b p).map (fun s => s.deallocate size)
          else malloc_site t b1 p1) ∧
    (malloc_site t b p = none →
      (deallocation_at t size b p).ok = false ∧
      (deallocation_at t size b p).table._table = t._table) ∧
    ((deallocation_at t size b p).ok = false →
      (deallocation_at t size b p).table._table = t._table) := by
  by_cases hl : live t
  · obtain ⟨h1, _, h3⟩ := deallocation_at_live t hl size b p
    have hnone : malloc_site t b p = none →
        (deallocation_at t size b p).table._table = t._table := by
      intro hn
      rw [h1]
      have he : entry_at (t._table b) p = none := by simpa [malloc_site] using hn
      funext i
      simp only [Table.update_site, Table.set_bucket, modify_at_none _ _ _ he]
      by_cases hi : i = b
      · simp [hi]
      · simp [hi]
    refine ⟨?_, ?_, ?_, ?_⟩
    · rw [h3]; simp [hl]
    · intro _ b1 p1
      rw [malloc_site_congr _ _ h1, malloc_site_update_site]
    · intro hn
      refine ⟨?_, hnone hn⟩
      rw [h3, hn]; rfl
    · intro hok
      apply hnone
      rw [h3] at hok
      cases hm : malloc_site t b p with
      | none => rfl
      | some x => rw [hm] at hok; exact Bool.noConfusion hok
  · obtain ⟨h1, h2⟩ := deallocation_at_denied t hl size b p
    refine ⟨?_, ?_, ?_, ?_⟩
    · rw [h2]; simp [hl]
    · intro hok; rw [h2] at hok; exact Bool.noConfusion hok
    · intro _; exact ⟨h2, h1⟩
    · intro _; exact h1

/-- C6, at a concrete table: after `allocation_at(A, 10)` has put a record at location
`(6, 0)`, the call `deallocation_at(4, 6, 0)` returns `true` and leaves that record with
6 bytes in 1 call. -/
theorem deallocation_at_contract_witness :
    (deallocation_at (allocation_at sample_env initial_table stack_A 10 0 0 1 false).table
      4 6 0).ok = true ∧
    malloc_site (deallocation_at
      (allocation_at sample_env initial_table stack_A 10 0 0 1 false).table 4 6 0).table 6 0
      = some { _call_stack := stack_A, _flags := 1, _c := { _count := 1, _size := 6 } } := by
  have h := deallocation_at_contract
    (allocation_at sample_env initial_table stack_A 10 0 0 1 false).table 4 6 0
  have hok := h.1.mpr (by decide)
  refine ⟨hok, ?_⟩
  rw [h.2.1 hok 6 0]
  decide

/-- C7: the round trip.  When `allocation_at(stack, size, &b, &p, flags)` returns `true`,
`access_stack(out, b, p)` on the resulting table returns `true` and sets `out` to
`stack`. -/
theorem round_trip (E : Env) (t : Table) (stack : NativeCallStack) (size b p : Nat)
    (flags : MEMFLAGS) (oom : Bool) (out : NativeCallStack)
    (h : (allocation_at E t stack size b p flags oom).ok = true) :
    (access_stack (allocation_at E t stack size b p flags oom).table out
      (allocation_at E t stack size b p flags oom).bucket_idx
      (allocation_at E t stack size b p flags oom).pos_idx).ok = true ∧
    (access_stack (allocation_at E t stack size b p flags oom).table out
      (allocation_at E t stack size b p flags oom).bucket_idx
      (allocation_at E t stack size b p flags oom).pos_idx).stack = stack := by
  obtain ⟨hl, hb, hf⟩ := allocation_at_ok E t stack size b p flags oom h
  have hl1 := allocation_at_live_table E t stack size b p flags oom hl
  obtain ⟨e, he, hk⟩ := find_pos_some _ _ _ hf
  obtain ⟨_, _, h3, h4⟩ := access_stack_live _ hl1 out
    (allocation_at E t stack size b p flags oom).bucket_idx
    (allocation_at E t stack size b p flags oom).pos_idx
  rw [h3, h4, hb]
  simp [malloc_site, he, MallocSite.call_stack, MallocSiteHashtableEntry.peek, hk]

/-- C7, at a concrete call: `allocation_at(A, 10)` on the initial table succeeds, and
`access_stack` at the location it returned gives back `A`. -/
theorem round_trip_witness :
    (allocation_at sample_env initial_table stack_A 10 0 0 1 false).ok = true ∧
    (access_stack (allocation_at sample_env initial_table stack_A 10 0 0 1 false).table []
      (allocation_at sample_env initial_table stack_A 10 0 0 1 false).bucket_idx
      (allocation_at sample_env initial_table stack_A 10 0 0 1 false).pos_idx).stack
      = stack_A :=
  ⟨by decide,
   (round_trip sample_env initial_table stack_A 10 0 0 1 false [] (by decide)).2⟩

/-- C8, the claim as stated fails: on the live initial table, a first call whose entry
allocation fails returns `false`, so the two calls for the same call stack and flag do
not both succeed; the same holds with a bucket bound of 2. -/
theorem idempotent_identity_counterexample :
    live initial_table ∧
    ¬ ((allocation_at sample_env initial_table stack_A 10 0 0 1 true).ok = true ∧
       (allocation_at sample_env
          (allocation_at sample_env initial_table stack_A 10 0 0 1 true).table
          stack_A 5 0 0 1 true).ok = true) ∧
    ¬ ((allocation_at_bounded sample_env 2 initial_table stack_A 10 0 0 1 true).ok = true ∧
       (allocation_at_bounded sample_env 2
          (allocation_at_bounded sample_env 2 initial_table stack_A 10 0 0 1 true).table
          stack_A 5 0 0 1 true).ok = true) := by
  decide

/-- C9: location stability.  When `allocation_at` returns `true` with the location
`(b, p)`, then after any later sequence of calls (allocations that insert into the same
bucket included) `malloc_site(b, p)` still resolves, to the record of the same entry: it
has the same call stack and flags as when the location was produced. -/
theorem location_stability (E : Env) (t : Table) (stack : NativeCallStack)
    (size b p : Nat) (flags : MEMFLAGS) (oom : Bool) (later : List Op)
    (h : (allocation_at E t stack size b p flags oom).ok = true) :
    ∃ site site1,
      malloc_site (allocation_at E t stack size b p flags oom).table
        (allocation_at E t stack size b p flags oom).bucket_idx
        (allocation_at E t stack size b p flags oom).pos_idx = some site ∧
      site._call_stack = stack ∧
      malloc_site (run_ops E (allocation_at E t stack size b p flags oom).table later).1
        (allocation_at E t stack size b p flags oom).bucket_idx
        (allocation_at E t stack size b p flags oom).pos_idx = some site1 ∧
      site1._call_stack = site._call_stack ∧ site1._flags = site._flags := by
  obtain ⟨_, hb, hf⟩ := allocation_at_ok E t stack size b p flags oom h
  obtain ⟨e, he, hk⟩ := find_pos_some _ _ _ hf
  obtain ⟨e1, he1, hk1, hfl, _⟩ := run_ops_entry_at E later _ _ _ e he
  refine ⟨e._malloc_site, e1._malloc_site, ?_, hk, ?_, hk1, hfl⟩
  · rw [hb]; simp [malloc_site, he, MallocSiteHashtableEntry.peek]
  · rw [hb]; simp [malloc_site, he1, MallocSiteHashtableEntry.peek]

/-- C9, at concrete calls: the location `(6, 0)` returned for `A` still resolves to the
record of `A` after `C` was inserted into the same bucket and `B` into another. -/
theorem location_stability_witness :
    (allocation_at sample_env initial_table stack_A 10 0 0 1 false).ok = true ∧
    (malloc_site (run_ops sample_env
        (allocation_at sample_env initial_table stack_A 10 0 0 1 false).table
        [Op.allocation_at stack_C 7 0 0 1 false, Op.allocation_at stack_B 20 0 0 2 false]).1
      6 0).map MallocSite.call_stack = some stack_A := by
  obtain ⟨site, site1, h1, h2, h3, h4, _⟩ :=
    location_stability sample_env initial_table stack_A 10 0 0 1 false
      [Op.allocation_at stack_C 7 0 0 1 false, Op.allocation_at stack_B 20 0 0 2 false]
      (by decide)
  refine ⟨by decide, ?_⟩
  have hb : (allocation_at sample_env initial_table stack_A 10 0 0 1 false).bucket_idx = 6 := by
    decide
  have hp : (allocation_at sample_env initial_table stack_A 10 0 0 1 false).pos_idx = 0 := by
    decide
  rw [hb, hp] at h3
  rw [h3]
  simp [MallocSite.call_stack, h4, h2]

/-! ## Well-formed bucket arrays -/

theorem stacks_of_modify_at (f : MallocSite → MallocSite) (hf : keeps_identity f)
    (l : List MallocSiteHashtableEntry) (p : Nat) :
    stacks_of (modify_at f l p) = stacks_of l :=
  modify_at_stacks f (fun s => (hf s).1) l p

theorem find_pos_none_iff (k : NativeCallStack) (l : List MallocSiteHashtableEntry) :
    find_pos k l = none ↔ k ∉ stacks_of l := by
  rw [find_pos_none]
  simp only [stacks_of, List.mem_map, not_exists, not_and]

theorem entry_at_stack_mem (l : List MallocSiteHashtableEntry) (p : Nat)
    (e : MallocSiteHashtableEntry) (h : entry_at l p = some e) :
    e._malloc_site._call_stack ∈ stacks_of l :=
  List.mem_map_of_mem _ (entry_at_mem l p e h)

theorem well_formed_initial (E : Env) : well_formed E (fun _ => []) := by
  intro b
  simp [stacks_of]

theorem step_well_formed (E : Env) (T U : Nat → List MallocSiteHashtableEntry)
    (h : BucketStep E T U) (hw : well_formed E T) : well_formed E U := by
  cases h with
  | same => exact hw
  | modify b1 p1 f hf =>
      intro b
      by_cases hb : b = b1
      · subst hb
        simp only [if_true, stacks_of_modify_at f hf]
        exact hw b
      · simp only [hb, if_false]
        exact hw b
  | insert key flags f hf habsent =>
      intro b
      by_cases hb : b = bucket_of E key
      · subst hb
        have hs : stacks_of ((MallocSiteHashtableEntry.new E key flags).update f
            :: T (bucket_of E key)) = key :: stacks_of (T (bucket_of E key)) := by
          simp [stacks_of, MallocSiteHashtableEntry.update, MallocSiteHashtableEntry.new,
            (hf _).1, MallocSite.new]
        simp only [if_true, hs]
        refine ⟨?_, ?_⟩
        · intro k hk
          rcases List.mem_cons.mp hk with hk | hk
          · rw [hk]
          · exact (hw _).1 k hk
        · exact List.nodup_cons.mpr ⟨(find_pos_none_iff _ _).mp habsent, (hw _).2⟩
      · simp only [hb, if_false]
        exact hw b

theorem apply_well_formed (E : Env) (t : Table) (op : Op) (hw : well_formed E t._table) :
    well_formed E (op.apply E t).1._table :=
  step_well_formed E _ _ (apply_step E t op) hw

theorem well_formed_unique (E : Env) (T : Nat → List MallocSiteHashtableEntry)
    (hw : well_formed E T) (b p : Nat) (e : MallocSiteHashtableEntry)
    (he : entry_at (T b) p = some e) :
    b = bucket_of E e._malloc_site._call_stack ∧
    find_pos e._malloc_site._call_stack (T b) = some p :=
  ⟨((hw b).1 _ (entry_at_stack_mem _ _ _ he)).symm,
   find_pos_of_entry_at _ (hw b).2 p e he⟩

/-! ## Accounting -/

theorem walk_bucket_all {σ : Type} (w : MallocSiteWalker σ)
    (hw : ∀ s site, (w.do_malloc_site s site).2 = true)
    (l : List MallocSiteHashtableEntry) :
    ∀ s : σ, (walk_bucket w l s).2.1 = l.map MallocSiteHashtableEntry.peek ∧
      (walk_bucket w l s).2.2 = true := by
  induction l with
  | nil => intro s; exact ⟨rfl, rfl⟩
  | cons e rest ih =>
      intro s
      simp only [walk_bucket, hw, if_true, List.map_cons]
      exact ⟨by rw [(ih _).1], (ih _).2⟩

theorem walk_from_all {σ : Type} (w : MallocSiteWalker σ)
    (hw : ∀ s site, (w.do_malloc_site s site).2 = true) (t : Table) (n : Nat) :
    ∀ (index : Nat) (s : σ),
      (walk_from w t index n s).2.1 = all_sites_from t._table index n ∧
      (walk_from w t index n s).2.2 = true := by
  induction n with
  | zero => intro index s; exact ⟨rfl, rfl⟩
  | succ n ih =>
      intro index s
      simp only [walk_from, (walk_bucket_all w hw _ _).2, if_true, all_sites_from]
      exact ⟨by rw [(walk_bucket_all w hw _ _).1, (ih _ _).1], (ih _ _).2⟩

theorem mem_all_sites_from (T : Nat → List MallocSiteHashtableEntry) (n : Nat) :
    ∀ (index : Nat) (site : MallocSite),
      site ∈ all_sites_from T index n ↔
        ∃ b, index ≤ b ∧ b < index + n ∧ ∃ e ∈ T b, e.peek = site := by
  induction n with
  | zero =>
      intro index site
      simp only [all_sites_from, List.not_mem_nil, false_iff]
      rintro ⟨b, h1, h2, _⟩
      omega
  | succ n ih =>
      intro index site
      simp only [all_sites_from, List.mem_append, List.mem_map, ih]
      constructor
      · rintro (⟨e, he, hs⟩ | ⟨b, h1, h2, h3⟩)
        · exact ⟨index, le_refl _, by omega, e, he, hs⟩
        · exact ⟨b, by omega, by omega, h3⟩
      · rintro ⟨b, h1, h2, e, he, hs⟩
        by_cases hb : b = index
        · subst hb; exact Or.inl ⟨e, he, hs⟩
        · exact Or.inr ⟨b, by omega, by omega, e, he, hs⟩

theorem mem_stacks_all_sites_from (T : Nat → List MallocSiteHashtableEntry)
    (index n : Nat) (k : NativeCallStack) :
    k ∈ (all_sites_from T index n).map MallocSite.call_stack ↔
      ∃ b, index ≤ b ∧ b < index + n ∧ k ∈ stacks_of (T b) := by
  simp only [List.mem_map, mem_all_sites_from, stacks_of]
  constructor
  · rintro ⟨site, ⟨b, h1, h2, e, he, hs⟩, hk⟩
    exact ⟨b, h1, h2, e, he, by rw [← hk, ← hs]; rfl⟩
  · rintro ⟨b, h1, h2, e, he, hk⟩
    exact ⟨e.peek, ⟨b, h1, h2, e, he, rfl⟩, hk⟩

theorem nodup_stacks_all_sites_from (E : Env) (T : Nat → List MallocSiteHashtableEntry)
    (hw : well_formed E T) (n : Nat) :
    ∀ index : Nat, ((all_sites_from T index n).map MallocSite.call_stack).Nodup := by
  induction n with
  | zero => intro index; simp [all_sites_from]
  | succ n ih =>
      intro index
      simp only [all_sites_from, List.map_append]
      rw [List.nodup_append]
      refine ⟨?_, ih _, ?_⟩
      · have h := (hw index).2
        simpa [stacks_of, MallocSite.call_stack, MallocSiteHashtableEntry.peek,
          Function.comp_def] using h
      · intro k hk1 hk2
        have hk1s : k ∈ stacks_of (T index) := by
          simpa [stacks_of, MallocSite.call_stack, MallocSiteHashtableEntry.peek,
            Function.comp_def] using hk1
        obtain ⟨b, h1, _, h3⟩ := (mem_stacks_all_sites_from T _ _ k).mp hk2
        have e1 := (hw index).1 k hk1s
        have e2 := (hw b).1 k h3
        omega

theorem table_size_pos (E : Env) (hd : 1 ≤ E.NMT_TrackingStackDepth) : 0 < table_size E := by
  unfold table_size table_base_size
  omega

theorem bucket_of_lt (E : Env) (hd : 1 ≤ E.NMT_TrackingStackDepth) (k : NativeCallStack) :
    bucket_of E k < table_size E :=
  Nat.mod_lt _ (table_size_pos E hd)

/-! ## The total of the byte counters -/

theorem total_size_append (a b : List MallocSite) :
    total_size (a ++ b) = total_size a + total_size b := by
  simp [total_size]

theorem total_size_cons (x : MallocSite) (a : List MallocSite) :
    total_size (x :: a) = (x.size : Int) + total_size a := by
  simp [total_size]

theorem total_from_set (T : Nat → List MallocSiteHashtableEntry) (b : Nat)
    (l1 : List MallocSiteHashtableEntry) (n : Nat) :
    ∀ index : Nat,
      total_size (all_sites_from (fun j => if j = b then l1 else T j) index n)
        = total_size (all_sites_from T index n)
          + (if index ≤ b ∧ b < index + n
              then total_size (l1.map MallocSiteHashtableEntry.peek)
                - total_size ((T b).map MallocSiteHashtableEntry.peek)
              else 0) := by
  induction n with
  | zero =>
      intro index
      have : ¬ (index ≤ b ∧ b < index + 0) := by omega
      simp [all_sites_from, this]
  | succ n ih =>
      intro index
      simp only [all_sites_from, total_size_append, ih]
      by_cases hb : index = b
      · subst hb
        have h1 : ¬ (index + 1 ≤ index ∧ index < index + 1 + n) := by omega
        have h2 : index ≤ index ∧ index < index + (n + 1) := by omega
        simp only [if_true, h1, if_false, h2, and_self]
        ring
      · have hne : ¬ index = b := hb
        simp only [hne, if_false]
        by_cases hr : index + 1 ≤ b ∧ b < index + 1 + n
        · have h2 : index ≤ b ∧ b < index + (n + 1) := by omega
          simp only [hr, h2, and_self, if_true]
          ring
        · have h2 : ¬ (index ≤ b ∧ b < index + (n + 1)) := by omega
          simp only [hr, h2, if_false]
          ring

theorem total_modify_at (f : MallocSite → MallocSite) (l : List MallocSiteHashtableEntry)
    (p : Nat) (e : MallocSiteHashtableEntry) (h : entry_at l p = some e) :
    total_size ((modify_at f l p).map MallocSiteHashtableEntry.peek)
      = total_size (l.map MallocSiteHashtableEntry.peek)
        + (((f e._malloc_site).size : Int) - (e._malloc_site.size : Int)) := by
  induction l with
  | nil => simp [entry_at] at h
  | cons x rest ih =>
      simp only [entry_at] at h
      by_cases hp : p = rest.length
      · simp only [hp, if_true, Option.some.injEq] at h
        subst h
        simp only [modify_at, hp, if_true, List.map_cons, total_size_cons,
          MallocSiteHashtableEntry.peek, MallocSiteHashtableEntry.update]
        ring
      · simp only [hp, if_false] at h
        simp only [modify_at, hp, if_false, List.map_cons, total_size_cons, ih h]
        ring

theorem wrap_size_t_cast (x : Int) :
    ((wrap_size_t x : Nat) : Int) = x % 2 ^ 64 := by
  unfold wrap_size_t size_t_bits
  rw [Int.toNat_of_nonneg (Int.emod_nonneg _ (by norm_num))]
  norm_num

theorem allocate_modEq (s : MallocSite) (size : Nat) :
    Int.ModEq (2 ^ 64) (((s.allocate size).size : Int) - (s.size : Int)) (size : Int) := by
  have h : ((s.allocate size).size : Int) = ((s.size : Int) + (size : Int)) % 2 ^ 64 := by
    simp only [MallocSite.allocate, MallocSite.size, MemoryCounter.allocate]
    exact wrap_size_t_cast _
  rw [h]
  have h1 : Int.ModEq (2 ^ 64) (((s.size : Int) + (size : Int)) % 2 ^ 64)
      ((s.size : Int) + (size : Int)) := Int.mod_modEq _ _
  have h2 := Int.ModEq.sub h1 (Int.ModEq.refl (s.size : Int))
  simpa using h2

theorem deallocate_modEq (s : MallocSite) (size : Nat) :
    Int.ModEq (2 ^ 64) (((s.deallocate size).size : Int) - (s.size : Int))
      (-(size : Int)) := by
  have h : ((s.deallocate size).size : Int) = ((s.size : Int) - (size : Int)) % 2 ^ 64 := by
    simp only [MallocSite.deallocate, MallocSite.size, MemoryCounter.deallocate]
    exact wrap_size_t_cast _
  rw [h]
  have h1 : Int.ModEq (2 ^ 64) (((s.size : Int) - (size : Int)) % 2 ^ 64)
      ((s.size : Int) - (size : Int)) := Int.mod_modEq _ _
  have h2 := Int.ModEq.sub h1 (Int.ModEq.refl (s.size : Int))
  simpa using h2

theorem total_update_site (E : Env) (hd : 1 ≤ E.NMT_TrackingStackDepth) (t : Table)
    (hw : well_formed E t._table) (b p : Nat) (f : MallocSite → MallocSite)
    (e : MallocSiteHashtableEntry) (he : entry_at (t._table b) p = some e) :
    total_size (all_sites_from (t.update_site b p f)._table 0 (table_size E))
      = total_size (all_sites_from t._table 0 (table_size E))
        + (((f e._malloc_site).size : Int) - (e._malloc_site.size : Int)) := by
  have hb : b < table_size E := by
    rw [(well_formed_unique E _ hw b p e he).1]
    exact bucket_of_lt E hd _
  have hr : 0 ≤ b ∧ b < 0 + table_size E := by omega
  have hT : (t.update_site b p f)._table
      = fun j => if j = b then modify_at f (t._table b) p else t._table j := rfl
  rw [hT, total_from_set, if_pos hr, total_modify_at f _ p e he]
  ring

theorem update_site_none (t : Table) (b p : Nat) (f : MallocSite → MallocSite)
    (h : entry_at (t._table b) p = none) : (t.update_site b p f)._table = t._table := by
  funext i
  simp only [Table.update_site, Table.set_bucket, modify_at_none _ _ _ h]
  by_cases hi : i = b
  · simp [hi]
  · simp [hi]

theorem allocated_bytes_cons (op : Op) (o : Outcome) (ops : List Op) (outs : List Outcome) :
    allocated_bytes (op :: ops) (o :: outs)
      = allocated_bytes [op] [o] + allocated_bytes ops outs := by
  cases op <;> simp [allocated_bytes]

theorem deallocated_bytes_cons (op : Op) (o : Outcome) (ops : List Op)
    (outs : List Outcome) :
    deallocated_bytes (op :: ops) (o :: outs)
      = deallocated_bytes [op] [o] + deallocated_bytes ops outs := by
  cases op <;> simp [deallocated_bytes]

theorem allocated_stacks_cons (op : Op) (o : Outcome) (ops : List Op)
    (outs : List Outcome) :
    allocated_stacks (op :: ops) (o :: outs)
      = allocated_stacks [op] [o] ++ allocated_stacks ops outs := by
  cases op <;> simp [allocated_stacks]

theorem apply_total (E : Env) (hd : 1 ≤ E.NMT_TrackingStackDepth) (t : Table) (op : Op)
    (hl : live t) (hw : well_formed E t._table) :
    Int.ModEq (2 ^ 64)
      (total_size (all_sites_from (op.apply E t).1._table 0 (table_size E)))
      (total_size (all_sites_from t._table 0 (table_size E))
        + (allocated_bytes [op] [(op.apply E t).2] : Int)
        - (deallocated_bytes [op] [(op.apply E t).2] : Int)) := by
  cases op with
  | access_stack stack b p =>
      simp only [Op.apply, (access_stack_live t hl stack b p).1, allocated_bytes,
        deallocated_bytes]
      simp
  | deallocation_at size b p =>
      obtain ⟨h1, _, h3⟩ := deallocation_at_live t hl size b p
      simp only [Op.apply, h1, h3, allocated_bytes, deallocated_bytes]
      cases he : entry_at (t._table b) p with
      | none =>
          have hm : malloc_site t b p = none := by simp [malloc_site, he]
          rw [update_site_none t b p _ he, hm]
          simp
      | some e =>
          have hm : malloc_site t b p = some e.peek := by simp [malloc_site, he]
          rw [total_update_site E hd t hw b p _ e he, hm]
          have h := deallocate_modEq e._malloc_site size
          have h2 := Int.ModEq.add
            (Int.ModEq.refl (total_size (all_sites_from t._table 0 (table_size E)))) h
          simpa [sub_eq_add_neg] using h2
  | allocation_at stack size b p flags oom =>
      simp only [Op.apply, allocated_bytes, deallocated_bytes]
      cases hf : find_pos stack (t._table (bucket_of E stack)) with
      | some q =>
          obtain ⟨h1, _, h3, _, _⟩ := allocation_at_found E t hl stack size b p flags oom q hf
          obtain ⟨e, he, _⟩ := find_pos_some _ _ _ hf
          rw [h1]
          simp only [h3, if_true]
          rw [total_update_site E hd t hw _ q _ e he]
          have h := allocate_modEq e._malloc_site size
          have h2 := Int.ModEq.add
            (Int.ModEq.refl (total_size (all_sites_from t._table 0 (table_size E)))) h
          simpa using h2
      | none =>
          cases oom with
          | true =>
              obtain ⟨h1, _, h3⟩ := allocation_at_oom E t hl stack size b p flags hf
              rw [h1]
              simp only [h3]
              simp
          | false =>
              obtain ⟨h1, _, h3, _, _⟩ := allocation_at_new E t hl stack size b p flags hf
              have hT : (t.set_bucket (bucket_of E stack)
                  ((MallocSiteHashtableEntry.new E stack flags).update
                    (fun s => s.allocate size) :: t._table (bucket_of E stack)))._table
                  = fun j => if j = bucket_of E stack
                      then (MallocSiteHashtableEntry.new E stack flags).update
                        (fun s => s.allocate size) :: t._table (bucket_of E stack)
                      else t._table j := rfl
              have hr : 0 ≤ bucket_of E stack ∧ bucket_of E stack < 0 + table_size E := by
                have := bucket_of_lt E hd stack
                omega
              rw [h1]
              simp only [h3, if_true]
              rw [hT, total_from_set, if_pos hr, List.map_cons, total_size_cons]
              have h := allocate_modEq (MallocSite.new stack flags) size
              have hz : ((MallocSite.new stack flags).size : Int) = 0 := rfl
              rw [hz, sub_zero] at h
              have h2 := Int.ModEq.add
                (Int.ModEq.refl (total_size (all_sites_from t._table 0 (table_size E)))) h
              have hx : ((MallocSiteHashtableEntry.new E stack flags).update
                  (fun s => s.allocate size)).peek
                  = (MallocSite.new stack flags).allocate size := rfl
              rw [hx]
              simp only [if_true, Nat.cast_zero, sub_zero]
              have hring : total_size (all_sites_from t._table 0 (table_size E))
                  + (((MallocSite.new stack flags).allocate size).size
                    + total_size (List.map MallocSiteHashtableEntry.peek
                        (t._table (bucket_of E stack)))
                    - total_size (List.map MallocSiteHashtableEntry.peek
                        (t._table (bucket_of E stack))))
                  = total_size (all_sites_from t._table 0 (table_size E))
                    + (((MallocSite.new stack flags).allocate size).size : Int) := by ring
              rw [hring]
              exact h2

theorem apply_present (E : Env) (t : Table) (op : Op) (hl : live t) (k : NativeCallStack) :
    present (op.apply E t).1._table k
      ↔ present t._table k ∨ k ∈ allocated_stacks [op] [(op.apply E t).2] := by
  cases op with
  | access_stack stack b p =>
      simp only [Op.apply, (access_stack_live t hl stack b p).1, allocated_stacks]
      simp
  | deallocation_at size b p =>
      obtain ⟨h1, _, _⟩ := deallocation_at_live t hl size b p
      simp only [Op.apply, h1, allocated_stacks, List.not_mem_nil, or_false, present]
      constructor
      · rintro ⟨i, hi⟩
        refine ⟨i, ?_⟩
        by_cases hib : i = b
        · subst hib
          rw [update_site_bucket, stacks_of_modify_at _ (keeps_identity_deallocate size)] at hi
          exact hi
        · simpa [Table.update_site, Table.set_bucket, hib] using hi
      · rintro ⟨i, hi⟩
        refine ⟨i, ?_⟩
        by_cases hib : i = b
        · subst hib
          rw [update_site_bucket, stacks_of_modify_at _ (keeps_identity_deallocate size)]
          exact hi
        · simpa [Table.update_site, Table.set_bucket, hib] using hi
  | allocation_at stack size b p flags oom =>
      simp only [Op.apply, allocated_stacks, present]
      cases hf : find_pos stack (t._table (bucket_of E stack)) with
      | some q =>
          obtain ⟨h1, _, h3, _, _⟩ := allocation_at_found E t hl stack size b p flags oom q hf
          obtain ⟨e, he, hk⟩ := find_pos_some _ _ _ hf
          have hpres : stack ∈ stacks_of (t._table (bucket_of E stack)) := by
            have hm := entry_at_stack_mem _ _ _ he
            rw [hk] at hm
            exact hm
          rw [h1]
          simp only [h3, if_true, List.append_nil, List.mem_singleton]
          constructor
          · rintro ⟨i, hi⟩
            refine Or.inl ⟨i, ?_⟩
            by_cases hib : i = bucket_of E stack
            · subst hib
              rw [update_site_bucket,
                stacks_of_modify_at _ (keeps_identity_allocate size)] at hi
              exact hi
            · simpa [Table.update_site, Table.set_bucket, hib] using hi
          · rintro (⟨i, hi⟩ | hks)
            · refine ⟨i, ?_⟩
              by_cases hib : i = bucket_of E stack
              · subst hib
                rw [update_site_bucket,
                  stacks_of_modify_at _ (keeps_identity_allocate size)]
                exact hi
              · simpa [Table.update_site, Table.set_bucket, hib] using hi
            · refine ⟨bucket_of E stack, ?_⟩
              rw [update_site_bucket,
                stacks_of_modify_at _ (keeps_identity_allocate size), hks]
              exact hpres
      | none =>
          cases oom with
          | true =>
              obtain ⟨h1, _, h3⟩ := allocation_at_oom E t hl stack size b p flags hf
              rw [h1]
              simp only [h3]
              simp
          | false =>
              obtain ⟨h1, _, h3, _, _⟩ := allocation_at_new E t hl stack size b p flags hf
              rw [h1]
              simp only [h3, if_true, List.append_nil, List.mem_singleton]
              have hs : stacks_of ((MallocSiteHashtableEntry.new E stack flags).update
                  (fun s => s.allocate size) :: t._table (bucket_of E stack))
                  = stack :: stacks_of (t._table (bucket_of E stack)) := rfl
              constructor
              · rintro ⟨i, hi⟩
                by_cases hib : i = bucket_of E stack
                · subst hib
                  rw [set_bucket_bucket, hs] at hi
                  rcases List.mem_cons.mp hi with hi | hi
                  · exact Or.inr hi
                  · exact Or.inl ⟨_, hi⟩
                · exact Or.inl ⟨i, by simpa [Table.set_bucket, hib] using hi⟩
              · rintro (⟨i, hi⟩ | hks)
                · refine ⟨i, ?_⟩
                  by_cases hib : i = bucket_of E stack
                  · subst hib
                    rw [set_bucket_bucket, hs]
                    exact List.mem_cons_of_mem _ hi
                  · simpa [Table.set_bucket, hib] using hi
                · refine ⟨bucket_of E stack, ?_⟩
                  rw [set_bucket_bucket, hs, hks]
                  exact List.mem_cons_self _ _

theorem run_total (E : Env) (hd : 1 ≤ E.NMT_TrackingStackDepth) (ops : List Op) :
    ∀ t : Table, live t → well_formed E t._table →
      Int.ModEq (2 ^ 64)
        (total_size (all_sites_from (run_ops E t ops).1._table 0 (table_size E)))
        (total_size (all_sites_from t._table 0 (table_size E))
          + (allocated_bytes ops (run_ops E t ops).2 : Int)
          - (deallocated_bytes ops (run_ops E t ops).2 : Int)) ∧
      (∀ k, present (run_ops E t ops).1._table k
        ↔ present t._table k ∨ k ∈ allocated_stacks ops (run_ops E t ops).2) ∧
      well_formed E (run_ops E t ops).1._table := by
  induction ops with
  | nil =>
      intro t _ hw
      simp only [run_ops, allocated_bytes, deallocated_bytes, allocated_stacks]
      refine ⟨by simp, by simp, hw⟩
  | cons op ops ih =>
      intro t hl hw
      obtain ⟨k1, k2, k3⟩ := ih (op.apply E t).1 (apply_live E t op hl)
        (apply_well_formed E t op hw)
      have h1 := apply_total E hd t op hl hw
      have h2 := apply_present E t op hl
      simp only [run_ops]
      rw [allocated_bytes_cons, deallocated_bytes_cons, allocated_stacks_cons]
      refine ⟨?_, ?_, k3⟩
      · have h3 := Int.ModEq.sub (Int.ModEq.add h1
          (Int.ModEq.refl (allocated_bytes ops (run_ops E (op.apply E t).1 ops).2 : Int)))
          (Int.ModEq.refl (deallocated_bytes ops (run_ops E (op.apply E t).1 ops).2 : Int))
        refine k1.trans ?_
        refine Int.ModEq.trans h3 ?_
        push_cast
        have : ∀ a b c d e : Int, a + b - c + d - e = a + (b + d) - (c + e) := by
          intro a b c d e; ring
        rw [this]
      · intro k
        rw [k2 k, h2 k, List.mem_append, or_assoc]

theorem total_size_nonneg (sites : List MallocSite) : 0 ≤ total_size sites := by
  induction sites with
  | nil => simp [total_size]
  | cons x rest ih =>
      rw [total_size_cons]
      have : (0 : Int) ≤ (x.size : Int) := Int.ofNat_nonneg _
      omega

theorem present_initial (k : NativeCallStack) : ¬ present initial_table._table k := by
  rintro ⟨b, hb⟩
  simp [initial_table, stacks_of] at hb

set_option maxRecDepth 100000 in
/-- C10, the claim as stated fails: after `allocation_at(A, 10)` and a successful
`deallocation_at(15, 6, 0)` on the record of `A`, the walk visits one record whose
`size()` is `2^64 - 5`, while the allocated sizes minus the deallocated sizes are
`10 - 15`. -/
theorem exhaustive_walk_counterexample :
    (∀ o ∈ (run_ops sample_env initial_table
      [Op.allocation_at stack_A 10 0 0 1 false, Op.deallocation_at 15 6 0]).2, o.ok = true) ∧
    ((walk_malloc_site sample_env (run_ops sample_env initial_table
      [Op.allocation_at stack_A 10 0 0 1 false, Op.deallocation_at 15 6 0]).1
      always_true_walker ()).2.1.map MallocSite.size) = [18446744073709551611] ∧
    (18446744073709551611 : Int) ≠ 10 - 15 := by
  decide

/-- C10, amended: the exhaustive walk.  After any sequence of calls on the initial table,
`walk_malloc_site` with a visitor that always returns `true` returns `true`; it visits
every record of the table, no call stack twice, and the call stacks it visits are exactly
those of the successful `allocation_at` calls, so it visits exactly `K` records when these
calls were made for `K` distinct call stacks.  The sum of `size()` over the visited
records is congruent modulo `2^64` to the sum of the sizes of the successful
`allocation_at` calls minus the sum of the sizes of the successful `deallocation_at`
calls, and equal to it when both lie in `[0, 2^64)`. -/
theorem exhaustive_walk {σ : Type} (E : Env) (hd : 1 ≤ E.NMT_TrackingStackDepth)
    (ops : List Op) (w : MallocSiteWalker σ)
    (hw : ∀ s site, (w.do_malloc_site s site).2 = true) (s0 : σ) :
    let r := run_ops E initial_table ops
    let v := walk_malloc_site E r.1 w s0
    v.2.2 = true ∧
    (∀ b p site, malloc_site r.1 b p = some site → site ∈ v.2.1) ∧
    (v.2.1.map MallocSite.call_stack).Nodup ∧
    (∀ k, k ∈ v.2.1.map MallocSite.call_stack ↔ k ∈ allocated_stacks ops r.2) ∧
    v.2.1.length = (allocated_stacks ops r.2).dedup.length ∧
    total_size v.2.1 % 2 ^ 64
      = ((allocated_bytes ops r.2 : Int) - (deallocated_bytes ops r.2 : Int)) % 2 ^ 64 ∧
    (0 ≤ (allocated_bytes ops r.2 : Int) - (deallocated_bytes ops r.2 : Int) →
      (allocated_bytes ops r.2 : Int) - (deallocated_bytes ops r.2 : Int) < 2 ^ 64 →
      total_size v.2.1 < 2 ^ 64 →
      total_size v.2.1
        = (allocated_bytes ops r.2 : Int) - (deallocated_bytes ops r.2 : Int)) := by
  intro r v
  have hl0 : live initial_table := by decide
  obtain ⟨k1, k2, k3⟩ := run_total E hd ops initial_table hl0 (well_formed_initial E)
  obtain ⟨v1, v2⟩ := walk_from_all w hw r.1 (table_size E) 0 s0
  have hv : v.2.1 = all_sites_from r.1._table 0 (table_size E) := v1
  have hmem : ∀ k, k ∈ v.2.1.map MallocSite.call_stack ↔ k ∈ allocated_stacks ops r.2 := by
    intro k
    rw [hv, mem_stacks_all_sites_from]
    have hk := k2 k
    constructor
    · rintro ⟨b, _, _, hb⟩
      rcases hk.mp ⟨b, hb⟩ with h | h
      · exact absurd h (present_initial k)
      · exact h
    · intro h
      obtain ⟨b, hb⟩ := hk.mpr (Or.inr h)
      have hbk : bucket_of E k = b := (k3 b).1 k hb
      have hlt := bucket_of_lt E hd k
      exact ⟨b, Nat.zero_le _, by omega, hb⟩
  have hnd : (v.2.1.map MallocSite.call_stack).Nodup := by
    rw [hv]; exact nodup_stacks_all_sites_from E _ k3 _ 0
  have hmod : total_size v.2.1 % 2 ^ 64
      = ((allocated_bytes ops r.2 : Int) - (deallocated_bytes ops r.2 : Int)) % 2 ^ 64 := by
    rw [hv]
    have h0 : total_size (all_sites_from initial_table._table 0 (table_size E)) = 0 := by
      have : ∀ n i, all_sites_from initial_table._table i n = [] := by
        intro n
        induction n with
        | zero => intro i; rfl
        | succ n ih =>
            intro i
            simp only [all_sites_from, ih]
            rfl
      rw [this]; rfl
    rw [h0, zero_add] at k1
    exact k1
  refine ⟨v2, ?_, hnd, hmem, ?_, hmod, ?_⟩
  · intro b p site hs
    simp only [malloc_site, Option.map_eq_some'] at hs
    obtain ⟨e, he, hes⟩ := hs
    rw [hv, mem_all_sites_from]
    have hb := (well_formed_unique E _ k3 b p e he).1
    have hlt := bucket_of_lt E hd e._malloc_site._call_stack
    exact ⟨b, Nat.zero_le _, by omega, e, entry_at_mem _ _ _ he, hes⟩
  · have hperm : List.Perm (v.2.1.map MallocSite.call_stack)
        (allocated_stacks ops r.2).dedup := by
      rw [List.perm_ext_iff_of_nodup hnd (List.nodup_dedup _)]
      intro k
      rw [hmem k, List.mem_dedup]
    have hlen := hperm.length_eq
    rw [List.length_map] at hlen
    exact hlen
  · intro h1 h2 h3
    have hn := total_size_nonneg v.2.1
    rw [Int.emod_eq_of_lt hn h3, Int.emod_eq_of_lt h1 h2] at hmod
    exact hmod

/-- C10, amended, at concrete calls: `A`, `B`, `A` allocated with 10, 20, 5 bytes and 3
bytes deallocated from the record of `A`: the walk visits 2 records that hold 32 bytes
together. -/
theorem exhaustive_walk_witness :
    1 ≤ sample_env.NMT_TrackingStackDepth ∧
    (walk_malloc_site sample_env (run_ops sample_env initial_table
      [Op.allocation_at stack_A 10 0 0 1 false, Op.allocation_at stack_B 20 0 0 1 false,
        Op.allocation_at stack_A 5 0 0 1 false, Op.deallocation_at 3 6 0]).1
      always_true_walker ()).2.1.length = 2 ∧
    total_size (walk_malloc_site sample_env (run_ops sample_env initial_table
      [Op.allocation_at stack_A 10 0 0 1 false, Op.allocation_at stack_B 20 0 0 1 false,
        Op.allocation_at stack_A 5 0 0 1 false, Op.deallocation_at 3 6 0]).1
      always_true_walker ()).2.1 % 2 ^ 64 = 32 := by
  have h := exhaustive_walk sample_env (by decide)
    [Op.allocation_at stack_A 10 0 0 1 false, Op.allocation_at stack_B 20 0 0 1 false,
      Op.allocation_at stack_A 5 0 0 1 false, Op.deallocation_at 3 6 0]
    always_true_walker (fun _ _ => rfl) ()
  refine ⟨by decide, ?_, ?_⟩
  · rw [h.2.2.2.2.1]; decide
  · rw [h.2.2.2.2.2.1]; decide

/-! ## The walk as a walk over the list of all records -/

theorem walk_bucket_eq {σ : Type} (w : MallocSiteWalker σ)
    (l : List MallocSiteHashtableEntry) :
    ∀ s : σ, walk_bucket w l s = walk_sites w (l.map MallocSiteHashtableEntry.peek) s := by
  induction l with
  | nil => intro s; rfl
  | cons e rest ih =>
      intro s
      simp only [walk_bucket, List.map_cons, walk_sites, ih]

theorem walk_sites_append {σ : Type} (w : MallocSiteWalker σ) (a b : List MallocSite) :
    ∀ s : σ, walk_sites w (a ++ b) s
      = if (walk_sites w a s).2.2 then
          ((walk_sites w b (walk_sites w a s).1).1,
            (walk_sites w a s).2.1 ++ (walk_sites w b (walk_sites w a s).1).2.1,
            (walk_sites w b (walk_sites w a s).1).2.2)
        else walk_sites w a s := by
  induction a with
  | nil => intro s; simp [walk_sites]
  | cons x rest ih =>
      intro s
      simp only [List.cons_append, walk_sites]
      by_cases hx : (w.do_malloc_site s x).2 = true
      · simp only [hx, if_true, List.append_eq, ih]
        by_cases hr : (walk_sites w rest (w.do_malloc_site s x).1).2.2 = true
        · simp only [hr, if_true, List.cons_append]
        · have hf : (walk_sites w rest (w.do_malloc_site s x).1).2.2 = false := by
            cases hv : (walk_sites w rest (w.do_malloc_site s x).1).2.2 with
            | false => rfl
            | true => exact absurd hv hr
          simp [hf]
      · simp only [hx, if_false]
        simp

theorem walk_from_eq {σ : Type} (w : MallocSiteWalker σ) (t : Table) (n : Nat) :
    ∀ (index : Nat) (s : σ),
      walk_from w t index n s = walk_sites w (all_sites_from t._table index n) s := by
  induction n with
  | zero => intro index s; rfl
  | succ n ih =>
      intro index s
      simp only [walk_from, all_sites_from, walk_sites_append, walk_bucket_eq, ih]

theorem walk_sites_initial {σ : Type} (w : MallocSiteWalker σ) (l : List MallocSite) :
    ∀ s : σ, (walk_sites w l s).2.1 <+: l ∧
      visitor_answers w (walk_sites w l s).2.1 s <+: visitor_answers w l s := by
  induction l with
  | nil => intro s; simp [walk_sites, visitor_answers]
  | cons x rest ih =>
      intro s
      simp only [walk_sites]
      by_cases hx : (w.do_malloc_site s x).2 = true
      · simp only [hx, if_true, visitor_answers]
        obtain ⟨h1, h2⟩ := ih (w.do_malloc_site s x).1
        exact ⟨List.prefix_cons_inj x |>.mpr h1, List.prefix_cons_inj _ |>.mpr h2⟩
      · simp only [hx, if_false, visitor_answers]
        refine ⟨?_, ?_⟩
        · exact List.prefix_cons_inj x |>.mpr List.nil_prefix
        · exact List.prefix_cons_inj _ |>.mpr List.nil_prefix

theorem walk_sites_true_iff {σ : Type} (w : MallocSiteWalker σ) (l : List MallocSite) :
    ∀ s : σ, ((walk_sites w l s).2.2 = true ↔ ∀ a ∈ visitor_answers w l s, a = true) ∧
      ((walk_sites w l s).2.2 = true → (walk_sites w l s).2.1 = l) := by
  induction l with
  | nil => intro s; simp [walk_sites, visitor_answers]
  | cons x rest ih =>
      intro s
      simp only [walk_sites, visitor_answers, List.mem_cons, forall_eq_or_imp]
      by_cases hx : (w.do_malloc_site s x).2 = true
      · simp only [hx, if_true, true_and]
        obtain ⟨h1, h2⟩ := ih (w.do_malloc_site s x).1
        exact ⟨h1, fun h => by rw [h2 h]⟩
      · simp only [hx, if_false, false_and]
        simp

theorem walk_sites_false {σ : Type} (w : MallocSiteWalker σ) (l : List MallocSite) :
    ∀ s : σ, (walk_sites w l s).2.2 = false →
      ∃ pre x, (walk_sites w l s).2.1 = pre ++ [x] ∧
        visitor_answers w (walk_sites w l s).2.1 s
          = List.replicate pre.length true ++ [false] := by
  induction l with
  | nil => intro s h; simp [walk_sites] at h
  | cons x rest ih =>
      intro s h
      simp only [walk_sites] at h ⊢
      by_cases hx : (w.do_malloc_site s x).2 = true
      · simp only [hx, if_true] at h ⊢
        obtain ⟨pre, y, h1, h2⟩ := ih (w.do_malloc_site s x).1 h
        refine ⟨x :: pre, y, by rw [h1]; rfl, ?_⟩
        simp only [visitor_answers, hx, h2, List.length_cons, List.replicate_succ,
          List.cons_append]
      · simp only [hx, if_false]
        refine ⟨[], x, rfl, ?_⟩
        have hf : (w.do_malloc_site s x).2 = false := by
          cases hv : (w.do_malloc_site s x).2 with
          | false => rfl
          | true => exact absurd hv hx
        simp [visitor_answers, hf]

theorem walk_sites_base (x : MallocSite) (rest : List MallocSite) :
    walk_sites MallocSiteWalker.base (x :: rest) () = ((), [x], false) := by
  simp [walk_sites, MallocSiteWalker.base]

theorem all_sites_from_ne_nil (T : Nat → List MallocSiteHashtableEntry) (n b : Nat)
    (hb : b < n) (hne : T b ≠ []) : all_sites_from T 0 n ≠ [] := by
  obtain ⟨e, he⟩ := List.exists_mem_of_ne_nil _ hne
  have hm : e.peek ∈ all_sites_from T 0 n :=
    (mem_all_sites_from T n 0 e.peek).mpr ⟨b, Nat.zero_le _, by omega, e, he, rfl⟩
  exact List.ne_nil_of_mem hm

/-- C11: early termination of the walk.  Let `all` be the records of every entry of every
bucket, in bucket order.  The records `walk_malloc_site` visits are a prefix of `all`, and
the answers the visitor gave are the corresponding prefix of its answers along `all`.
The walk returns `true` exactly when the visitor answers `true` for every record of
`all`, and then it has visited all of them.  When the walk returns `false`, the last
record it visited is the first one for which the visitor answered `false`, and no record
was visited after it.  With the base `MallocSiteWalker`, whose `do_malloc_site` returns
`false`, the walk of a table with a non-empty bucket visits exactly one record and
returns `false`. -/
theorem walk_early_termination {σ : Type} (E : Env) (t : Table) (w : MallocSiteWalker σ)
    (s : σ) :
    (walk_malloc_site E t w s).2.1 <+: all_sites_from t._table 0 (table_size E) ∧
    visitor_answers w (walk_malloc_site E t w s).2.1 s
      <+: visitor_answers w (all_sites_from t._table 0 (table_size E)) s ∧
    ((walk_malloc_site E t w s).2.2 = true
      ↔ ∀ a ∈ visitor_answers w (all_sites_from t._table 0 (table_size E)) s, a = true) ∧
    ((walk_malloc_site E t w s).2.2 = true →
      (walk_malloc_site E t w s).2.1 = all_sites_from t._table 0 (table_size E)) ∧
    ((walk_malloc_site E t w s).2.2 = false →
      ∃ pre x, (walk_malloc_site E t w s).2.1 = pre ++ [x] ∧
        visitor_answers w (walk_malloc_site E t w s).2.1 s
          = List.replicate pre.length true ++ [false]) ∧
    ((∃ b, b < table_size E ∧ t._table b ≠ []) →
      (walk_malloc_site E t MallocSiteWalker.base ()).2.1.length = 1 ∧
      (walk_malloc_site E t MallocSiteWalker.base ()).2.2 = false) := by
  have hw : ∀ {τ : Type} (v : MallocSiteWalker τ) (s0 : τ), walk_malloc_site E t v s0
      = walk_sites v (all_sites_from t._table 0 (table_size E)) s0 :=
    fun v s0 => walk_from_eq v t (table_size E) 0 s0
  rw [hw w s, hw MallocSiteWalker.base ()]
  refine ⟨(walk_sites_initial w _ s).1, (walk_sites_initial w _ s).2,
    (walk_sites_true_iff w _ s).1, (walk_sites_true_iff w _ s).2,
    walk_sites_false w _ s, ?_⟩
  rintro ⟨b, hb, hne⟩
  have hall := all_sites_from_ne_nil t._table (table_size E) b hb hne
  cases hl : all_sites_from t._table 0 (table_size E) with
  | nil => exact absurd hl hall
  | cons x rest =>
      rw [walk_sites_base]
      exact ⟨rfl, rfl⟩

/-- C11, at a concrete table: after `A` and `B` were allocated, the walk with the base
`MallocSiteWalker` visits one record and returns `false`. -/
theorem walk_early_termination_witness :
    ((walk_malloc_site sample_env (run_ops sample_env initial_table
      [Op.allocation_at stack_A 10 0 0 1 false, Op.allocation_at stack_B 20 0 0 1 false]).1
      MallocSiteWalker.base ()).2.1.length = 1) ∧
    ((walk_malloc_site sample_env (run_ops sample_env initial_table
      [Op.allocation_at stack_A 10 0 0 1 false, Op.allocation_at stack_B 20 0 0 1 false]).1
      MallocSiteWalker.base ()).2.2 = false) :=
  (walk_early_termination sample_env (run_ops sample_env initial_table
      [Op.allocation_at stack_A 10 0 0 1 false, Op.allocation_at stack_B 20 0 0 1 false]).1
      MallocSiteWalker.base ()).2.2.2.2.2 ⟨6, by decide, by decide⟩

/-! ## Overflow of a hash bucket -/

theorem lookup_or_add_bounded_eq (E : Env) (L : Nat) (t : Table) (key : NativeCallStack)
    (b p : Nat) (flags : MEMFLAGS) (oom : Bool) :
    lookup_or_add_bounded E L t key b p flags oom
      = lookup_or_add E t key b p flags
          (oom || decide (L ≤ (t._table (bucket_of E key)).length)) := by
  simp only [lookup_or_add_bounded, lookup_or_add, bucket_of]
  cases find_pos key (t._table (hash_to_index E (E.hash key % 4294967296))) with
  | some q => rfl
  | none =>
      by_cases hL : L ≤ (t._table (hash_to_index E (E.hash key % 4294967296))).length
      · simp [hL]
      · cases oom <;> simp [hL]

theorem allocation_at_bounded_eq (E : Env) (L : Nat) (t : Table) (stack : NativeCallStack)
    (size b p : Nat) (flags : MEMFLAGS) (oom : Bool) :
    allocation_at_bounded E L t stack size b p flags oom
      = allocation_at E t stack size b p flags
          (oom || decide (L ≤ (t._table (bucket_of E stack)).length)) := by
  simp only [allocation_at_bounded, allocation_at, lookup_or_add_bounded_eq]

theorem allocation_at_not_ok (E : Env) (t : Table) (hl : live t) (stack : NativeCallStack)
    (size b p : Nat) (flags : MEMFLAGS) (oom : Bool) :
    (allocation_at E t stack size b p flags oom).ok = false
      ↔ find_pos stack (t._table (bucket_of E stack)) = none ∧ oom = true := by
  cases hf : find_pos stack (t._table (bucket_of E stack)) with
  | some q =>
      rw [(allocation_at_found E t hl stack size b p flags oom q hf).2.2.1]
      simp
  | none =>
      cases oom with
      | true =>
          rw [(allocation_at_oom E t hl stack size b p flags hf).2.2]
          simp
      | false =>
          rw [(allocation_at_new E t hl stack size b p flags hf).2.2.1]
          simp

theorem bucket_of_padded_stack (i : Nat) : bucket_of sample_env (padded_stack i) = 6 := by
  simp [bucket_of, hash_to_index, table_size, table_base_size, sample_env, padded_stack]

theorem crowded_table_bucket (n : Nat) :
    (crowded_table n)._table 6
      = (List.range n).map
          (fun j => MallocSiteHashtableEntry.new sample_env (padded_stack j) 1) := by
  simp [crowded_table]

theorem crowded_table_absent (n : Nat) :
    find_pos (padded_stack n) ((crowded_table n)._table 6) = none := by
  rw [find_pos_none_iff, crowded_table_bucket]
  simp only [stacks_of, List.map_map, List.mem_map, List.mem_range, Function.comp,
    not_exists, not_and]
  intro j hj heq
  have hlen : (padded_stack j).length = (padded_stack n).length := by
    have : padded_stack j = padded_stack n := heq
    rw [this]
  simp [padded_stack] at hlen
  omega

theorem crowded_table_live (n : Nat) : live (crowded_table n) := by
  rw [live_iff]
  show ¬ wrap_jint ((0 : Int) + 1) < 0
  decide

theorem crowded_table_overflow (L : Nat) :
    (allocation_at_bounded sample_env L (crowded_table L) (padded_stack L) 0 0 0 1 false).ok
      = false := by
  rw [allocation_at_bounded_eq, allocation_at_not_ok _ _ (crowded_table_live L),
    bucket_of_padded_stack]
  refine ⟨crowded_table_absent L, ?_⟩
  simp [crowded_table_bucket]

/-- C12, the claim as stated fails.  With a bucket bound of 2, `A` and `C` are recorded in
bucket 6 of the live initial table, and the call for `D`, a third call stack of that
bucket, returns `false` although entry allocation does not fail.  And whatever the
bound on the length of a bucket list is, it is not true that `allocation_at` returns
`true` on every live table whenever entry allocation succeeds. -/
theorem allocation_failure_causes_counterexample :
    ((allocation_at_bounded sample_env 2 initial_table stack_A 10 0 0 1 false).ok = true ∧
     (allocation_at_bounded sample_env 2
        (allocation_at_bounded sample_env 2 initial_table stack_A 10 0 0 1 false).table
        stack_C 7 0 0 1 false).ok = true ∧
     live (allocation_at_bounded sample_env 2
        (allocation_at_bounded sample_env 2 initial_table stack_A 10 0 0 1 false).table
        stack_C 7 0 0 1 false).table ∧
     (allocation_at_bounded sample_env 2
        (allocation_at_bounded sample_env 2
          (allocation_at_bounded sample_env 2 initial_table stack_A 10 0 0 1 false).table
          stack_C 7 0 0 1 false).table
        stack_D 5 0 0 1 false).ok = false) ∧
    ¬ ∃ L : Nat, ∀ (t : Table) (stack : NativeCallStack) (size b p : Nat) (flags : MEMFLAGS),
        live t → (allocation_at_bounded sample_env L t stack size b p flags false).ok = true := by
  refine ⟨by decide, ?_⟩
  rintro ⟨L, h⟩
  have h1 := h (crowded_table L) (padded_stack L) 0 0 0 1 (crowded_table_live L)
  rw [crowded_table_overflow] at h1
  exact Bool.noConfusion h1

/-- C12, amended: the causes of a failed allocation.  On a live table `allocation_at`
returns `false` exactly when the call stack has no entry in its bucket and either the
allocation of the new entry fails or the bucket is full (overflow of the hash bucket).
So when entry allocation succeeds, `allocation_at` returns `true` if the call stack
already has an entry or its bucket has room.  While the bucket has room the call behaves
as with unbounded buckets, where it returns `true` whenever entry allocation succeeds. -/
theorem allocation_failure_causes (E : Env) (L : Nat) (t : Table) (hl : live t)
    (stack : NativeCallStack) (size b p : Nat) (flags : MEMFLAGS) (oom : Bool) :
    ((allocation_at_bounded E L t stack size b p flags oom).ok = false
      ↔ find_pos stack (t._table (bucket_of E stack)) = none ∧
        (oom = true ∨ L ≤ (t._table (bucket_of E stack)).length)) ∧
    (oom = false →
      (t._table (bucket_of E stack)).length < L ∨
        (find_pos stack (t._table (bucket_of E stack))).isSome = true →
      (allocation_at_bounded E L t stack size b p flags oom).ok = true) ∧
    ((t._table (bucket_of E stack)).length < L →
      allocation_at_bounded E L t stack size b p flags oom
        = allocation_at E t stack size b p flags oom) ∧
    (allocation_at E t stack size b p flags false).ok = true := by
  have hiff : (allocation_at_bounded E L t stack size b p flags oom).ok = false
      ↔ find_pos stack (t._table (bucket_of E stack)) = none ∧
        (oom = true ∨ L ≤ (t._table (bucket_of E stack)).length) := by
    rw [allocation_at_bounded_eq, allocation_at_not_ok E t hl]
    simp
  refine ⟨hiff, ?_, ?_, ?_⟩
  · intro ho hroom
    cases hv : (allocation_at_bounded E L t stack size b p flags oom).ok with
    | true => rfl
    | false =>
        obtain ⟨h1, h2⟩ := hiff.mp hv
        rcases hroom with hr | hr
        · rcases h2 with h2 | h2
          · rw [ho] at h2; exact Bool.noConfusion h2
          · omega
        · rw [h1] at hr; exact Bool.noConfusion hr
  · intro hroom
    rw [allocation_at_bounded_eq]
    have : decide (L ≤ (t._table (bucket_of E stack)).length) = false := by
      simp; omega
    rw [this, Bool.or_false]
  · cases hv : (allocation_at E t stack size b p flags false).ok with
    | true => rfl
    | false =>
        have := ((allocation_at_not_ok E t hl stack size b p flags false).mp hv).2
        exact Bool.noConfusion this

/-- C12, amended, at concrete calls: with a bucket bound of 2 and `A`, `C` in bucket 6, a
further call for `A` succeeds even while entry allocation fails, and a call for `B`, whose
bucket is empty, succeeds. -/
theorem allocation_failure_causes_witness :
    live (crowded_table 2) ∧
    (allocation_at_bounded sample_env 2 (crowded_table 2) (padded_stack 1) 5 0 0 1 false).ok
      = true ∧
    (allocation_at_bounded sample_env 2 (crowded_table 2) stack_B 5 0 0 1 false).ok = true :=
  ⟨crowded_table_live 2,
   (allocation_failure_causes sample_env 2 (crowded_table 2) (crowded_table_live 2)
      (padded_stack 1) 5 0 0 1 false).2.1 rfl (Or.inr (by decide)),
   (allocation_failure_causes sample_env 2 (crowded_table 2) (crowded_table_live 2)
      stack_B 5 0 0 1 false).2.1 rfl (Or.inl (by decide))⟩

/-! ## Bucket indexing -/

theorem lookup_or_add_bucket_idx (E : Env) (t : Table) (key : NativeCallStack)
    (b p : Nat) (flags : MEMFLAGS) (oom : Bool) :
    (lookup_or_add E t key b p flags oom).bucket_idx = bucket_of E key := by
  simp only [lookup_or_add, bucket_of]
  cases find_pos key (t._table (hash_to_index E (E.hash key % 4294967296))) with
  | some q => rfl
  | none => cases oom <;> rfl

theorem lookup_or_add_bounded_bucket_idx (E : Env) (L : Nat) (t : Table)
    (key : NativeCallStack) (b p : Nat) (flags : MEMFLAGS) (oom : Bool) :
    (lookup_or_add_bounded E L t key b p flags oom).bucket_idx = bucket_of E key := by
  simp only [lookup_or_add_bounded, bucket_of]
  cases find_pos key (t._table (hash_to_index E (E.hash key % 4294967296))) with
  | some q => rfl
  | none =>
      by_cases hL : L ≤ (t._table (hash_to_index E (E.hash key % 4294967296))).length
      · simp only [hL, if_true]
      · simp only [hL, if_false]
        cases oom <;> rfl

/-- C13: bucket indexing.  For every `NMT_TrackingStackDepth ≥ 1`, `table_size` is
`128 * NMT_TrackingStackDepth - 1` and positive; `hash_buckets()` returns it (as an
`int`, which it fits as a constant of the source); for every `unsigned int` hash `h`,
`hash_to_index(h)` is `h mod table_size` and lies below `table_size`; so the `bucket_idx`
that `lookup_or_add` writes, and that `allocation_at` returns, is an index of
`_table`. -/
theorem bucket_indexing (E : Env) (hd : 1 ≤ E.NMT_TrackingStackDepth) :
    table_size E = 128 * E.NMT_TrackingStackDepth - 1 ∧
    0 < table_size E ∧
    ((table_size E : Int) ≤ max_jint → hash_buckets E = (table_size E : Int)) ∧
    (∀ h : Nat, h < 2 ^ 32 →
      hash_to_index E h = h % table_size E ∧ hash_to_index E h < table_size E) ∧
    (∀ (t : Table) (key : NativeCallStack) (b p : Nat) (flags : MEMFLAGS) (oom : Bool),
      (lookup_or_add E t key b p flags oom).bucket_idx
        = hash_to_index E (E.hash key % 2 ^ 32) ∧
      (lookup_or_add E t key b p flags oom).bucket_idx < table_size E) ∧
    (∀ (L : Nat) (t : Table) (key : NativeCallStack) (b p : Nat) (flags : MEMFLAGS)
      (oom : Bool), (lookup_or_add_bounded E L t key b p flags oom).bucket_idx < table_size E) ∧
    (∀ (t : Table) (stack : NativeCallStack) (size b p : Nat) (flags : MEMFLAGS) (oom : Bool),
      (allocation_at E t stack size b p flags oom).ok = true →
      (allocation_at E t stack size b p flags oom).bucket_idx < table_size E) := by
  refine ⟨rfl, table_size_pos E hd, ?_, ?_, ?_, ?_, ?_⟩
  · intro hfit
    unfold hash_buckets wrap_jint
    unfold max_jint at hfit
    have : (0 : Int) ≤ (table_size E : Int) := Int.ofNat_nonneg _
    omega
  · intro h _
    exact ⟨rfl, Nat.mod_lt _ (table_size_pos E hd)⟩
  · intro t key b p flags oom
    rw [lookup_or_add_bucket_idx]
    exact ⟨rfl, bucket_of_lt E hd key⟩
  · intro L t key b p flags oom
    rw [lookup_or_add_bounded_bucket_idx]
    exact bucket_of_lt E hd key
  · intro t stack size b p flags oom hok
    rw [(allocation_at_ok E t stack size b p flags oom hok).2.1]
    exact bucket_of_lt E hd stack

/-- C13, at the sample environment: depth 4 gives 511 buckets, `hash_buckets()` returns
511, the hash `517` goes to bucket 6, and `allocation_at` for the call stack `C` returns
the bucket index 6. -/
theorem bucket_indexing_witness :
    1 ≤ sample_env.NMT_TrackingStackDepth ∧
    table_size sample_env = 511 ∧ hash_buckets sample_env = 511 ∧
    hash_to_index sample_env 517 = 6 ∧
    (allocation_at sample_env initial_table stack_C 10 0 0 1 false).bucket_idx
      < table_size sample_env := by
  have h := bucket_indexing sample_env (by decide)
  refine ⟨by decide, h.1, ?_, ?_, ?_⟩
  · rw [h.2.2.1 (by decide), h.1]; rfl
  · rw [(h.2.2.2.1 517 (by decide)).1]; rfl
  · exact h.2.2.2.2.2.2 initial_table stack_C 10 0 0 1 false (by decide)

/-! ## The counter across an operation -/

theorem count_after_of_range (c : Int) (hlo : min_jint ≤ c) (hhi : c ≤ max_jint) :
    count_after c = c := by
  unfold min_jint at hlo
  unfold max_jint at hhi
  unfold count_after wrap_jint
  omega

theorem access_stack_count (t : Table) (stack : NativeCallStack) (b p : Nat) :
    (access_stack t stack b p).table._access_count = count_after t._access_count := by
  by_cases hl : live t
  · exact (access_stack_live t hl stack b p).2.1
  · rw [live_iff, not_not] at hl
    simp only [access_stack, shared_access_new_false _ hl, destructor_new]
    rfl

theorem deallocation_at_count (t : Table) (size b p : Nat) :
    (deallocation_at t size b p).table._access_count = count_after t._access_count := by
  by_cases hl : live t
  · exact (deallocation_at_live t hl size b p).2.1
  · rw [live_iff, not_not] at hl
    simp only [deallocation_at, shared_access_new_false _ hl, destructor_new]
    rfl

theorem allocation_at_count (E : Env) (t : Table) (stack : NativeCallStack)
    (size b p : Nat) (flags : MEMFLAGS) (oom : Bool) :
    (allocation_at E t stack size b p flags oom).table._access_count
      = count_after t._access_count := by
  by_cases hl : live t
  · cases hf : find_pos stack (t._table (bucket_of E stack)) with
    | some q => exact (allocation_at_found E t hl stack size b p flags oom q hf).2.1
    | none =>
        cases oom with
        | true => exact (allocation_at_oom E t hl stack size b p flags hf).2.1
        | false => exact (allocation_at_new E t hl stack size b p flags hf).2.1
  · rw [live_iff, not_not] at hl
    simp only [allocation_at, shared_access_new_false _ hl, destructor_new]
    rfl

theorem apply_count (E : Env) (t : Table) (op : Op) :
    (op.apply E t).1._access_count = count_after t._access_count := by
  cases op with
  | access_stack stack b p => exact access_stack_count t stack b p
  | allocation_at stack size b p flags oom => exact allocation_at_count E t stack size b p flags oom
  | deallocation_at size b p => exact deallocation_at_count t size b p

theorem run_ops_count (E : Env) (ops : List Op) :
    ∀ t : Table, min_jint ≤ t._access_count → t._access_count ≤ max_jint →
      (run_ops E t ops).1._access_count = t._access_count := by
  induction ops with
  | nil => intro t _ _; rfl
  | cons op ops ih =>
      intro t hlo hhi
      have h1 : (op.apply E t).1._access_count = t._access_count := by
        rw [apply_count, count_after_of_range _ hlo hhi]
      simp only [run_ops]
      rw [ih (op.apply E t).1 (by rw [h1]; exact hlo) (by rw [h1]; exact hhi), h1]

/-! ## The counter and the shared holders -/

theorem shared_count_eraseIdx (gs : List AccessGuard) :
    ∀ (i : Nat) (g : AccessGuard), gs.get? i = some g →
      shared_count (gs.eraseIdx i)
          + (if g._access_state = AccessState.SharedAccess then 1 else 0)
        = shared_count gs := by
  induction gs with
  | nil => intro i g h; simp at h
  | cons x rest ih =>
      intro i g h
      cases i with
      | zero =>
          simp only [List.get?_cons_zero, Option.some.injEq] at h
          subst h
          simp only [List.eraseIdx_cons_zero, shared_count]
          omega
      | succ j =>
          simp only [List.get?_cons_succ] at h
          have := ih j g h
          simp only [List.eraseIdx_cons_succ, shared_count]
          omega

theorem step_balanced (s : GuardSystem) (ev : GuardEvent)
    (h0 : 0 ≤ s._access_count) (h1 : s._access_count ≤ max_jint)
    (hc : s._access_count = (shared_count s.guards : Int)) :
    0 ≤ (s.step ev).1._access_count ∧ (s.step ev).1._access_count ≤ max_jint ∧
      (s.step ev).1._access_count = (shared_count (s.step ev).1.guards : Int) := by
  unfold max_jint at h1
  cases ev with
  | attempt =>
      simp only [GuardSystem.step]
      by_cases hneg : wrap_jint (s._access_count + 1) < 0
      · rw [shared_access_new_false _ hneg]
        have hback : wrap_jint (wrap_jint (s._access_count + 1) - 1) = s._access_count := by
          unfold wrap_jint at hneg ⊢; omega
        simp only [hback, shared_count, AccessGuard.new]
        refine ⟨h0, by unfold max_jint; exact h1, ?_⟩
        simp [hc]
      · rw [shared_access_new_true _ hneg]
        have hfwd : wrap_jint (s._access_count + 1) = s._access_count + 1 := by
          unfold wrap_jint at hneg ⊢; omega
        have hle : s._access_count + 1 ≤ 2147483647 := by
          unfold wrap_jint at hneg; omega
        simp only [hfwd, shared_count]
        refine ⟨by omega, by unfold max_jint; exact hle, ?_⟩
        simp [hc]
        ring
  | release i =>
      simp only [GuardSystem.step]
      cases hget : s.guards.get? i with
      | none => exact ⟨h0, by unfold max_jint; exact h1, hc⟩
      | some g =>
          have hcount := shared_count_eraseIdx s.guards i g hget
          simp only [AccessGuard.destructor]
          by_cases hg : g._access_state = AccessState.SharedAccess
          · simp only [hg, if_true] at hcount ⊢
            have hpos : (1 : Int) ≤ s._access_count := by
              rw [hc]; exact_mod_cast (by omega : 1 ≤ shared_count s.guards)
            have hw : wrap_jint (s._access_count - 1) = s._access_count - 1 := by
              unfold wrap_jint; omega
            rw [hw]
            refine ⟨by omega, by unfold max_jint; omega, ?_⟩
            rw [hc]
            have : (shared_count s.guards : Int)
                = (shared_count (s.guards.eraseIdx i) : Int) + 1 := by
              exact_mod_cast hcount.symm
            omega
          · simp only [hg, if_false, Nat.add_zero] at hcount ⊢
            refine ⟨h0, by unfold max_jint; exact h1, ?_⟩
            rw [hc, hcount]

theorem run_balanced (evs : List GuardEvent) :
    ∀ s : GuardSystem, 0 ≤ s._access_count → s._access_count ≤ max_jint →
      s._access_count = (shared_count s.guards : Int) →
      (s.run evs).1._access_count = (shared_count (s.run evs).1.guards : Int) := by
  induction evs with
  | nil => intro s _ _ hc; exact hc
  | cons ev evs ih =>
      intro s h0 h1 hc
      obtain ⟨k0, k1, kc⟩ := step_balanced s ev h0 h1 hc
      exact ih (s.step ev).1 k0 k1 kc

/-- C14: guard balance.  Without interleaving, each of `access_stack`, `allocation_at`
and `deallocation_at` returns with the counter at its value on entry, for every `int`
value of the counter and every outcome; so from counter 0 the counter is 0 after every
sequence of calls.  At the finer grain of the guard, from counter 0 and no live guard,
after any sequence of `shared_access` attempts and guard releases the counter equals the
number of live guards in state `SharedAccess`. -/
theorem guard_balance (E : Env) :
    (∀ (t : Table) (op : Op), min_jint ≤ t._access_count → t._access_count ≤ max_jint →
      (op.apply E t).1._access_count = t._access_count) ∧
    (∀ (t : Table) (ops : List Op), t._access_count = 0 →
      (run_ops E t ops).1._access_count = 0) ∧
    (∀ evs : List GuardEvent,
      (GuardSystem.initial.run evs).1._access_count
        = (shared_count (GuardSystem.initial.run evs).1.guards : Int)) := by
  refine ⟨?_, ?_, ?_⟩
  · intro t op hlo hhi
    rw [apply_count, count_after_of_range _ hlo hhi]
  · intro t ops h0
    rw [run_ops_count E ops t (by rw [h0]; decide) (by rw [h0]; decide), h0]
  · intro evs
    exact run_balanced evs GuardSystem.initial (by decide) (by decide) rfl

/-- C14, at concrete runs: from the initial table an allocation, a deallocation that does
not resolve and a stack access leave the counter at 0; on the latched counter a denied
allocation leaves the sentinel; and after two granted attempts and one release one
guard holds shared access and the counter is 1. -/
theorem guard_balance_witness :
    (run_ops sample_env initial_table
      [Op.allocation_at stack_A 10 0 0 1 false, Op.deallocation_at 4 9 9,
        Op.access_stack [] 6 0]).1._access_count = 0 ∧
    ((Op.allocation_at stack_A 10 0 0 1 false).apply sample_env
      (shutdown initial_table)).1._access_count = _MAGIC_ ∧
    (GuardSystem.initial.run
      [GuardEvent.attempt, GuardEvent.attempt, GuardEvent.release 0]).1._access_count
      = 1 :=
  ⟨(guard_balance sample_env).2.1 initial_table _ rfl,
   (guard_balance sample_env).1 (shutdown initial_table) _ (by decide) (by decide),
   by
    rw [(guard_balance sample_env).2.2
      [GuardEvent.attempt, GuardEvent.attempt, GuardEvent.release 0]]
    decide⟩

/-- C15: failure atomicity.  When shared access is denied, `allocation_at` returns
`false`, leaves `*bucket_idx` and `*pos_idx` as they were and changes no bucket (no entry
added, no counter changed); `deallocation_at` returns `false` and changes no bucket;
`access_stack` returns `false` and leaves its output call stack as it was.  On any
table, `access_stack` at a location that does not resolve returns `false` and leaves the
output call stack as it was. -/
theorem failure_atomicity (E : Env) (t : Table) (h : ¬ live t) :
    (∀ (stack : NativeCallStack) (size b p : Nat) (flags : MEMFLAGS) (oom : Bool),
      (allocation_at E t stack size b p flags oom).ok = false ∧
      (allocation_at E t stack size b p flags oom).bucket_idx = b ∧
      (allocation_at E t stack size b p flags oom).pos_idx = p ∧
      (allocation_at E t stack size b p flags oom).table._table = t._table) ∧
    (∀ (size b p : Nat),
      (deallocation_at t size b p).ok = false ∧
      (deallocation_at t size b p).table._table = t._table) ∧
    (∀ (stack : NativeCallStack) (b p : Nat),
      (access_stack t stack b p).ok = false ∧
      (access_stack t stack b p).stack = stack ∧
      (access_stack t stack b p).table._table = t._table) ∧
    (∀ (u : Table) (stack : NativeCallStack) (b p : Nat), malloc_site u b p = none →
      (access_stack u stack b p).ok = false ∧
      (access_stack u stack b p).stack = stack ∧
      (access_stack u stack b p).table._table = u._table) := by
  refine ⟨?_, ?_, ?_, ?_⟩
  · intro stack size b p flags oom
    obtain ⟨h1, h2, h3, h4⟩ := allocation_at_denied E t h stack size b p flags oom
    exact ⟨h2, h3, h4, h1⟩
  · intro size b p
    obtain ⟨h1, h2⟩ := deallocation_at_denied t h size b p
    exact ⟨h2, h1⟩
  · intro stack b p
    obtain ⟨h1, h2, h3⟩ := access_stack_denied t h stack b p
    exact ⟨h2, h3, h1⟩
  · intro u stack b p hn
    by_cases hl : live u
    · obtain ⟨h1, _, h3, h4⟩ := access_stack_live u hl stack b p
      rw [hn] at h3 h4
      exact ⟨h3, h4, h1⟩
    · obtain ⟨h1, h2, h3⟩ := access_stack_denied u hl stack b p
      exact ⟨h2, h3, h1⟩

/-- C15, at concrete calls: after `shutdown()` an `allocation_at` leaves the indices 3
and 4 it was given, and an `access_stack` leaves the call stack `B` it was given; on the
live initial table an `access_stack` at a location that does not resolve leaves `B`
too. -/
theorem failure_atomicity_witness :
    ¬ live (shutdown initial_table) ∧
    (allocation_at sample_env (shutdown initial_table) stack_A 10 3 4 1 false).bucket_idx = 3 ∧
    (allocation_at sample_env (shutdown initial_table) stack_A 10 3 4 1 false).pos_idx = 4 ∧
    (access_stack (shutdown initial_table) stack_B 6 0).stack = stack_B ∧
    (access_stack initial_table stack_B 6 0).stack = stack_B :=
  ⟨by decide,
   ((failure_atomicity sample_env (shutdown initial_table) (by decide)).1
      stack_A 10 3 4 1 false).2.1,
   ((failure_atomicity sample_env (shutdown initial_table) (by decide)).1
      stack_A 10 3 4 1 false).2.2.1,
   ((failure_atomicity sample_env (shutdown initial_table) (by decide)).2.2.1
      stack_B 6 0).2.1,
   ((failure_atomicity sample_env (shutdown initial_table) (by decide)).2.2.2
      initial_table stack_B 6 0 (by decide)).2.1⟩

/-- C16: sentinel arithmetic.  `_MAGIC_` is `-2^31`.  For every `k` with
`0 ≤ k ≤ 2^31 - 2`, a `shared_access` that starts with the counter at `_MAGIC_ + k` sees
a negative value after its increment and returns `false`, leaving the counter where it
was.  For a counter `c` in the range of `int`, `shared_access` returns `true` exactly
when `-1 ≤ c ≤ 2^31 - 2`. -/
theorem sentinel_arithmetic (g : AccessGuard) :
    _MAGIC_ = -2 ^ 31 ∧
    (∀ k : Int, 0 ≤ k → k ≤ 2 ^ 31 - 2 →
      wrap_jint (_MAGIC_ + k + 1) < 0 ∧
      g.shared_access (_MAGIC_ + k) = (g, _MAGIC_ + k, false)) ∧
    (∀ c : Int, min_jint ≤ c → c ≤ max_jint →
      ((g.shared_access c).2.2 = true ↔ -1 ≤ c ∧ c ≤ 2 ^ 31 - 2)) := by
  refine ⟨by decide, ?_, ?_⟩
  · intro k h0 h1
    have hneg : wrap_jint (_MAGIC_ + k + 1) < 0 := by
      unfold wrap_jint _MAGIC_ min_jint
      norm_num at h1 ⊢
      omega
    refine ⟨hneg, ?_⟩
    apply shared_access_refused g (_MAGIC_ + k) _ _ hneg
    · unfold _MAGIC_; omega
    · unfold _MAGIC_ min_jint max_jint; norm_num at h1 ⊢; omega
  · intro c hlo hhi
    by_cases hneg : wrap_jint (c + 1) < 0
    · rw [shared_access_refused g c hlo hhi hneg]
      unfold min_jint at hlo
      unfold max_jint at hhi
      unfold wrap_jint at hneg
      norm_num
      omega
    · rw [shared_access_granted g c hlo hhi (not_lt.mp hneg)]
      unfold min_jint at hlo
      unfold max_jint at hhi
      unfold wrap_jint at hneg
      norm_num
      omega

/-- C16, at concrete counters: at the sentinel plus 5 a `shared_access` is refused; at
`-1` it is granted and at `2^31 - 1` it is refused. -/
theorem sentinel_arithmetic_witness :
    AccessGuard.new.shared_access (_MAGIC_ + 5) = (AccessGuard.new, _MAGIC_ + 5, false) ∧
    (AccessGuard.new.shared_access (-1)).2.2 = true ∧
    (AccessGuard.new.shared_access max_jint).2.2 = false := by
  refine ⟨((sentinel_arithmetic AccessGuard.new).2.1 5 (by decide) (by decide)).2, ?_, ?_⟩
  · exact ((sentinel_arithmetic AccessGuard.new).2.2 (-1) (by decide) (by decide)).mpr
      (by decide)
  · have h := (sentinel_arithmetic AccessGuard.new).2.2 max_jint (by decide) (by decide)
    cases hv : (AccessGuard.new.shared_access max_jint).2.2 with
    | false => rfl
    | true => exact absurd (h.mp hv).2 (by decide)

/-! ## Steps on bounded buckets -/

theorem apply_bounded_allocation (E : Env) (L : Nat) (t : Table) (stack : NativeCallStack)
    (size b p : Nat) (flags : MEMFLAGS) (oom : Bool) :
    Op.apply_bounded E L t (Op.allocation_at stack size b p flags oom)
      = (Op.allocation_at stack size b p flags
          (oom || decide (L ≤ (t._table (bucket_of E stack)).length))).apply E t := by
  simp only [Op.apply_bounded, Op.apply, allocation_at_bounded_eq]

theorem apply_bounded_exists (E : Env) (L : Nat) (t : Table) (op : Op) :
    ∃ op1 : Op, op.apply_bounded E L t = op1.apply E t := by
  cases op with
  | access_stack stack b p => exact ⟨Op.access_stack stack b p, rfl⟩
  | allocation_at stack size b p flags oom =>
      exact ⟨_, apply_bounded_allocation E L t stack size b p flags oom⟩
  | deallocation_at size b p => exact ⟨Op.deallocation_at size b p, rfl⟩

theorem apply_bounded_live (E : Env) (L : Nat) (t : Table) (op : Op) (h : live t) :
    live (op.apply_bounded E L t).1 := by
  obtain ⟨op1, h1⟩ := apply_bounded_exists E L t op
  rw [h1]
  exact apply_live E t op1 h

theorem apply_bounded_step (E : Env) (L : Nat) (t : Table) (op : Op) :
    BucketStep E t._table (op.apply_bounded E L t).1._table := by
  obtain ⟨op1, h1⟩ := apply_bounded_exists E L t op
  rw [h1]
  exact apply_step E t op1

theorem run_ops_bounded_live (E : Env) (L : Nat) (ops : List Op) :
    ∀ t : Table, live t → live (run_ops_bounded E L t ops).1 := by
  induction ops with
  | nil => intro t h; exact h
  | cons op ops ih => intro t h; exact ih _ (apply_bounded_live E L t op h)

theorem run_ops_bounded_entry_at (E : Env) (L : Nat) (ops : List Op) :
    ∀ (t : Table) (b p : Nat) (e : MallocSiteHashtableEntry),
      entry_at (t._table b) p = some e →
      ∃ e1, entry_at ((run_ops_bounded E L t ops).1._table b) p = some e1 ∧
        e1._malloc_site._call_stack = e._malloc_site._call_stack ∧
        e1._malloc_site._flags = e._malloc_site._flags ∧ e1._hash = e._hash := by
  induction ops with
  | nil => intro t b p e he; exact ⟨e, he, rfl, rfl, rfl⟩
  | cons op ops ih =>
      intro t b p e he
      obtain ⟨e1, h1, h2, h3, h4⟩ :=
        step_entry_at E _ _ (apply_bounded_step E L t op) b p e he
      obtain ⟨e2, k1, k2, k3, k4⟩ := ih (op.apply_bounded E L t).1 b p e1 h1
      exact ⟨e2, k1, k2.trans h2, k3.trans h3, k4.trans h4⟩

theorem run_ops_bounded_find_pos (E : Env) (L : Nat) (ops : List Op) :
    ∀ (t : Table) (b q : Nat) (k : NativeCallStack),
      find_pos k (t._table b) = some q →
      find_pos k ((run_ops_bounded E L t ops).1._table b) = some q := by
  induction ops with
  | nil => intro t b q k hk; exact hk
  | cons op ops ih =>
      intro t b q k hk
      exact ih _ b q k (step_find_pos E _ _ (apply_bounded_step E L t op) b q k hk)

theorem allocation_at_bounded_ok (E : Env) (L : Nat) (t : Table) (stack : NativeCallStack)
    (size b p : Nat) (flags : MEMFLAGS) (oom : Bool)
    (h : (allocation_at_bounded E L t stack size b p flags oom).ok = true) :
    live t ∧
    live (allocation_at_bounded E L t stack size b p flags oom).table ∧
    (allocation_at_bounded E L t stack size b p flags oom).bucket_idx = bucket_of E stack ∧
    find_pos stack
        ((allocation_at_bounded E L t stack size b p flags oom).table._table
          (bucket_of E stack))
      = some (allocation_at_bounded E L t stack size b p flags oom).pos_idx := by
  rw [allocation_at_bounded_eq] at h ⊢
  obtain ⟨h1, h2, h3⟩ := allocation_at_ok E t stack size b p flags _ h
  exact ⟨h1, allocation_at_live_table E t stack size b p flags _ h1, h2, h3⟩

theorem allocation_at_bounded_found (E : Env) (L : Nat) (t : Table) (h : live t)
    (stack : NativeCallStack) (size b p : Nat) (flags : MEMFLAGS) (oom : Bool) (q : Nat)
    (hf : find_pos stack (t._table (bucket_of E stack)) = some q) :
    (allocation_at_bounded E L t stack size b p flags oom).table._table
      = (t.update_site (bucket_of E stack) q (fun s => s.allocate size))._table ∧
    (allocation_at_bounded E L t stack size b p flags oom).ok = true ∧
    (allocation_at_bounded E L t stack size b p flags oom).bucket_idx = bucket_of E stack ∧
    (allocation_at_bounded E L t stack size b p flags oom).pos_idx = q := by
  rw [allocation_at_bounded_eq]
  obtain ⟨h1, _, h3, h4, h5⟩ := allocation_at_found E t h stack size b p flags
    (oom || decide (L ≤ (t._table (bucket_of E stack)).length)) q hf
  exact ⟨h1, h3, h4, h5⟩

/-- C8, amended: idempotent identity, with the length of a bucket list bounded by any
`max_bucket_length`.  On a live table a first `allocation_at` succeeds when the call
stack already has an entry, or when the allocation of its entry does not fail and its
bucket has room.  Whenever a first call for a call stack succeeds, a later call for the
same call stack and flag, made after any calls in between, succeeds too (even if entry
allocation would fail then or the bucket has become full), with the same
`(bucket_idx, pos_idx)`; it adds no entry to any bucket, and it applies its
`allocate(size)` to the record at that location, which carries the same call stack and
flags as the record the first call resolved. -/
theorem idempotent_identity (E : Env) (max_bucket_length : Nat) (t : Table)
    (stack : NativeCallStack) (size1 size2 b1 p1 b2 p2 : Nat) (flags : MEMFLAGS)
    (oom1 oom2 : Bool) (mid : List Op) :
    let r1 := allocation_at_bounded E max_bucket_length t stack size1 b1 p1 flags oom1
    let tm := (run_ops_bounded E max_bucket_length r1.table mid).1
    let r2 := allocation_at_bounded E max_bucket_length tm stack size2 b2 p2 flags oom2
    (live t →
      (find_pos stack (t._table (bucket_of E stack))).isSome = true ∨
        (oom1 = false ∧ (t._table (bucket_of E stack)).length < max_bucket_length) →
      r1.ok = true) ∧
    (r1.ok = true →
      r2.ok = true ∧ r2.bucket_idx = r1.bucket_idx ∧ r2.pos_idx = r1.pos_idx ∧
      (∀ i, (r2.table._table i).length = (tm._table i).length) ∧
      ∃ site1 sitem,
        malloc_site r1.table r1.bucket_idx r1.pos_idx = some site1 ∧
        site1._call_stack = stack ∧
        malloc_site tm r1.bucket_idx r1.pos_idx = some sitem ∧
        sitem._call_stack = stack ∧ sitem._flags = site1._flags ∧
        malloc_site r2.table r2.bucket_idx r2.pos_idx = some (sitem.allocate size2)) := by
  intro r1 tm r2
  constructor
  · intro hl hcase
    cases hv : r1.ok with
    | true => rfl
    | false =>
        have hv1 : (allocation_at E t stack size1 b1 p1 flags
            (oom1 || decide (max_bucket_length ≤ (t._table (bucket_of E stack)).length))).ok
            = false := by
          rw [← allocation_at_bounded_eq]; exact hv
        obtain ⟨k1, k2⟩ := (allocation_at_not_ok E t hl stack size1 b1 p1 flags _).mp hv1
        rcases hcase with hc | ⟨ho, hroom⟩
        · rw [k1] at hc; exact Bool.noConfusion hc
        · subst ho
          have : decide (max_bucket_length ≤ (t._table (bucket_of E stack)).length) = false := by
            simp; omega
          rw [this] at k2
          exact Bool.noConfusion k2
  · intro h
    obtain ⟨_, hl1, hb, hf⟩ :=
      allocation_at_bounded_ok E max_bucket_length t stack size1 b1 p1 flags oom1 h
    have hlm : live tm := run_ops_bounded_live E max_bucket_length mid r1.table hl1
    have hfm : find_pos stack (tm._table (bucket_of E stack)) = some r1.pos_idx :=
      run_ops_bounded_find_pos E max_bucket_length mid r1.table _ _ stack hf
    obtain ⟨k1, k3, k4, k5⟩ := allocation_at_bounded_found E max_bucket_length tm hlm stack
      size2 b2 p2 flags oom2 r1.pos_idx hfm
    obtain ⟨e1, he1, hk1⟩ := find_pos_some _ _ _ hf
    obtain ⟨em, hem, hkm, hfl, _⟩ :=
      run_ops_bounded_entry_at E max_bucket_length mid r1.table _ _ e1 he1
    refine ⟨k3, by rw [k4, hb], k5, ?_, e1._malloc_site, em._malloc_site, ?_, hk1, ?_,
      hkm.trans hk1, hfl, ?_⟩
    · intro i
      show (r2.table._table i).length = _
      rw [k1]
      simp only [Table.update_site, Table.set_bucket]
      by_cases hi : i = bucket_of E stack
      · simp [hi, modify_at_length]
      · simp [hi]
    · show malloc_site r1.table r1.bucket_idx r1.pos_idx = _
      rw [hb]
      simp [malloc_site, he1, MallocSiteHashtableEntry.peek]
    · show malloc_site tm r1.bucket_idx r1.pos_idx = _
      rw [hb]
      simp [malloc_site, hem, MallocSiteHashtableEntry.peek]
    · show malloc_site r2.table r2.bucket_idx r2.pos_idx = _
      rw [malloc_site_congr _ _ k1, k4, k5, malloc_site_update_site]
      simp [malloc_site, hem, MallocSiteHashtableEntry.peek]

/-- C8, amended, at concrete calls: with a bucket bound of 2, `allocation_at(A, 10)` on
the initial table, then `allocation_at(C, 7)`, which fills the bucket of `A`, then
`allocation_at(A, 5)` while entry allocation fails: the last call succeeds at the
location of the first. -/
theorem idempotent_identity_witness :
    (allocation_at_bounded sample_env 2 initial_table stack_A 10 0 0 1 false).ok = true ∧
    (allocation_at_bounded sample_env 2
      (run_ops_bounded sample_env 2
        (allocation_at_bounded sample_env 2 initial_table stack_A 10 0 0 1 false).table
        [Op.allocation_at stack_C 7 0 0 1 false]).1 stack_A 5 0 0 1 true).ok = true ∧
    (allocation_at_bounded sample_env 2
      (run_ops_bounded sample_env 2
        (allocation_at_bounded sample_env 2 initial_table stack_A 10 0 0 1 false).table
        [Op.allocation_at stack_C 7 0 0 1 false]).1 stack_A 5 0 0 1 true).pos_idx
      = (allocation_at_bounded sample_env 2 initial_table stack_A 10 0 0 1 false).pos_idx :=
  ⟨(idempotent_identity sample_env 2 initial_table stack_A 10 5 0 0 0 0 1 false true
      [Op.allocation_at stack_C 7 0 0 1 false]).1 (by decide) (Or.inr ⟨rfl, by decide⟩),
   ((idempotent_identity sample_env 2 initial_table stack_A 10 5 0 0 0 0 1 false true
      [Op.allocation_at stack_C 7 0 0 1 false]).2 (by decide)).1,
   ((idempotent_identity sample_env 2 initial_table stack_A 10 5 0 0 0 0 1 false true
      [Op.allocation_at stack_C 7 0 0 1 false]).2 (by decide)).2.2.1⟩

/-! ## Accounting on bounded buckets -/

end MallocSiteTable
